import Mathlib

/-!
Verification development for the `basic_json_view` value model of the
jsoncons repository (`src/include/jsoncons/json_view.hpp`).

The C++ class `basic_json_view` is a tagged union of storage variants.  We
embed it as the inductive type `Value` below.  Machine numbers are embedded
as unbounded `Int`/`Nat` (the comparison code never exercises overflow: the
only integer cast, `static_cast<uint64_t>` of an `int64_t`, is guarded by a
`>= 0` test).  The C++ `double` payload is embedded as the exact rational
value of a finite IEEE-754 binary64 number, and the lossy conversion
`static_cast<double>` applied to 64-bit integers is embedded by the
round-to-nearest-even function `roundIntToF64`.  Heap ownership, allocators
and object addresses are not representable in a pure embedding; operations
are embedded as pure functions on `Value`, mutation as functions returning
the updated value, and throwing accessors with `Except`.

The enumerations `storage_kind` and `semantic_tag` and the helper
`jsoncons::detail::decode_half` live in headers that are not part of the
sources (`json_type.hpp`, utility headers); they are modelled from the
specification where noted.  Likewise the containers `json_array` and
`json_object` (`json_container_types.hpp`) are modelled from the
specification as lists, with the element-wise comparison semantics the
specification describes.
-/

namespace JsonView

/-- Semantic tags (`semantic_tag`).  Modelled from the spec: the enumeration
itself is declared in `json_type.hpp`, which is not among the sources.  Only
the distinctions the sources use matter here: `none` (used when the
comparator re-wraps a decoded half) and `ext` (tested by `dump_noflush` on
byte strings); all further tags are represented by other naturals. -/
abbrev Tag := Nat

/-- The tag `semantic_tag::none`. -/
def tagNone : Tag := 0

/-- The tag `semantic_tag::ext`. -/
def tagExt : Tag := 1

/-- The storage variants of `basic_json_view` (the union members declared in
`json_view.hpp`).  Every variant except `jsonConstPointer` stores its
`semantic_tag`; a `json_const_pointer_storage` copies its referent's tag at
construction and the accessor `tag()` forwards to the referent, so the
embedding derives it.  The `half` payload is the raw 16-bit pattern
(`uint16_t val_`), the `double` payload the exact rational value of a finite
binary64 number, the byte-string payload its bytes plus the 64-bit
extension tag. -/
inductive Value : Type where
  | nullValue (tag : Tag)
  | emptyObject (tag : Tag)
  | boolValue (b : Bool) (tag : Tag)
  | int64Value (v : Int) (tag : Tag)
  | uint64Value (v : Nat) (tag : Tag)
  | halfValue (bits : Nat) (tag : Tag)
  | doubleValue (v : ℚ) (tag : Tag)
  | shortString (s : String) (tag : Tag)
  | longString (s : String) (tag : Tag)
  | byteString (bytes : List Nat) (ext : Nat) (tag : Tag)
  | arrayValue (elts : List Value) (tag : Tag)
  | objectValue (entries : List (String × Value)) (tag : Tag)
  | jsonConstPointer (referent : Value)
deriving Repr

/-- Numeric discriminator of each storage kind.  Modelled from the spec: the
numeric values of `storage_kind` are declared in `json_type.hpp`, which is
not among the sources; the spec only requires them to be distinct so that
the `operator<` fall-back "comparing the numeric discriminator value" is a
total order.  We use the upstream ordering of the variant declarations. -/
def storageOrd : Value → Nat
  | .nullValue _ => 0
  | .boolValue _ _ => 1
  | .int64Value _ _ => 2
  | .uint64Value _ _ => 3
  | .halfValue _ _ => 4
  | .doubleValue _ _ => 5
  | .shortString _ _ => 6
  | .longString _ _ => 7
  | .byteString _ _ _ => 8
  | .arrayValue _ _ => 9
  | .emptyObject _ => 10
  | .objectValue _ _ => 11
  | .jsonConstPointer _ => 12

mutual

/-- Size measure used to justify termination of the comparators: every
recursive call of `operator==`/`operator<` either descends into a sub-value
(pointer referent, array element, object member) or rewrites a `half` into
the plain `double` wrapper `basic_json_view(decode_half(..))`, which this
measure makes strictly smaller. -/
def vsize : Value → Nat
  | .halfValue _ _ => 2
  | .jsonConstPointer p => vsize p + 1
  | .arrayValue l _ => lsize l + 1
  | .objectValue l _ => osize l + 1
  | _ => 1

/-- Combined size of a list of values. -/
def lsize : List Value → Nat
  | [] => 0
  | v :: r => vsize v + lsize r + 1

/-- Combined size of a list of object members. -/
def osize : List (String × Value) → Nat
  | [] => 0
  | (_, v) :: r => vsize v + osize r + 1

end

/-- Decoding of a 16-bit half-precision pattern to its exact value.
Modelled from the spec: `jsoncons::detail::decode_half` is declared in a
utility header that is not among the sources; the spec describes the
variant as a 16/64-bit float, i.e. IEEE-754 binary16.  For the two infinity
and NaN exponent patterns (exponent field 31) no rational value exists;
theorems that depend on decoded values therefore restrict to finite
patterns (see `FiniteHalf`). -/
def decodeHalf (bits : Nat) : ℚ :=
  let s := bits / 32768 % 2
  let e := bits / 1024 % 32
  let m := bits % 1024
  let mag : ℚ := ((if e = 0 then 2 * m else (1024 + m) * 2 ^ e : ℕ) : ℚ) / 2 ^ 25
  if s = 1 then -mag else mag

/-- A 16-bit pattern that denotes a finite half-precision number. -/
def FiniteHalf (bits : Nat) : Prop := bits < 65536 ∧ bits / 1024 % 32 ≠ 31

/-- Round-to-nearest, ties-to-even, of an integer to 53 significant bits:
the exact value of `static_cast<double>` applied to an `int64_t`/`uint64_t`
(every 64-bit integer is far below the binary64 overflow threshold, so the
result is always finite). -/
def roundIntToF64 (i : Int) : ℚ :=
  let n := i.natAbs
  if n ≤ 2 ^ 53 then (i : ℚ)
  else
    let k := n.log2 - 52
    let q := n / 2 ^ k
    let r := n % 2 ^ k
    let h := 2 ^ (k - 1)
    let q2 := if r > h ∨ (r = h ∧ q % 2 = 1) then q + 1 else q
    (i.sign : ℚ) * (q2 : ℚ) * 2 ^ k

mutual

/-- Translation of `friend bool operator==(const basic_json_view& lhs, const
basic_json_view& rhs)` (json_view.hpp, lines 1934-2103), i.e. the body after
the `&lhs == &rhs` address short-circuit (object identity is not
representable in the embedding; the short-circuited result coincides with
`eqJson v v`, proved below).  The outer match mirrors the switch on
`lhs.storage()`, each inner match the nested switch on `rhs.storage()`.
Array and object payload comparison (`json_array`/`json_object`
`operator==` from `json_container_types.hpp`, not among the sources) is
modelled from the spec as element-wise comparison, size mismatch unequal. -/
def eqJson : Value → Value → Bool
  | .jsonConstPointer p, b =>
    match b with
    | .jsonConstPointer q => eqJson p q
    | bb => eqJson p bb
  | .nullValue t, b =>
    match b with
    | .nullValue _ => true
    | .jsonConstPointer q => eqJson (.nullValue t) q
    | _ => false
  | .emptyObject t, b =>
    match b with
    | .emptyObject _ => true
    | .objectValue l _ => l.length == 0
    | .jsonConstPointer q => eqJson (.emptyObject t) q
    | _ => false
  | .boolValue x t, b =>
    match b with
    | .boolValue y _ => x == y
    | .jsonConstPointer q => eqJson (.boolValue x t) q
    | _ => false
  | .int64Value i t, b =>
    match b with
    | .int64Value j _ => i == j
    | .uint64Value u _ => if 0 ≤ i then i.toNat == u else false
    | .halfValue h _ => roundIntToF64 i == decodeHalf h
    | .doubleValue d _ => roundIntToF64 i == d
    | .jsonConstPointer q => eqJson (.int64Value i t) q
    | _ => false
  | .uint64Value u t, b =>
    match b with
    | .int64Value j _ => if 0 ≤ j then u == j.toNat else false
    | .uint64Value w _ => u == w
    | .halfValue h _ => roundIntToF64 u == decodeHalf h
    | .doubleValue d _ => roundIntToF64 u == d
    | .jsonConstPointer q => eqJson (.uint64Value u t) q
    | _ => false
  | .halfValue h t, b =>
    match b with
    | .halfValue h2 _ => h == h2
    | .jsonConstPointer q => eqJson (.halfValue h t) q
    | bb => eqJson (.doubleValue (decodeHalf h) tagNone) bb
  | .doubleValue d t, b =>
    match b with
    | .int64Value j _ => d == roundIntToF64 j
    | .uint64Value u _ => d == roundIntToF64 u
    | .halfValue h _ => d == decodeHalf h
    | .doubleValue d2 _ => d == d2
    | .jsonConstPointer q => eqJson (.doubleValue d t) q
    | _ => false
  | .shortString s t, b =>
    match b with
    | .shortString s2 _ => s == s2
    | .longString s2 _ => s == s2
    | .jsonConstPointer q => eqJson (.shortString s t) q
    | _ => false
  | .longString s t, b =>
    match b with
    | .shortString s2 _ => s == s2
    | .longString s2 _ => s == s2
    | .jsonConstPointer q => eqJson (.longString s t) q
    | _ => false
  | .byteString bs e t, b =>
    match b with
    | .byteString bs2 _ _ => bs == bs2
    | .jsonConstPointer q => eqJson (.byteString bs e t) q
    | _ => false
  | .arrayValue l t, b =>
    match b with
    | .arrayValue l2 _ => eqListJ l l2
    | .jsonConstPointer q => eqJson (.arrayValue l t) q
    | _ => false
  | .objectValue l t, b =>
    match b with
    | .emptyObject _ => l.length == 0
    | .objectValue l2 _ => eqEntriesJ l l2
    | .jsonConstPointer q => eqJson (.objectValue l t) q
    | _ => false
termination_by a b => vsize a + vsize b
decreasing_by all_goals (simp [vsize, lsize, osize, tagNone]; try omega)

/-- Element-wise equality of array payloads.  Modelled from the spec row
"array | array | element-wise, recursive" (the container `operator==` is in
`json_container_types.hpp`, not among the sources). -/
def eqListJ : List Value → List Value → Bool
  | [], [] => true
  | a :: as, b :: bs => eqJson a b && eqListJ as bs
  | _, _ => false
termination_by l1 l2 => lsize l1 + lsize l2
decreasing_by all_goals (simp [vsize, lsize, osize, tagNone]; try omega)

/-- Element-wise equality of object payloads: the containers' key/value
sequences compared member by member, size mismatch unequal.  Modelled from
the spec row "object | object | compare underlying containers' element-wise
key/value sequence (size mismatch ⇒ unequal)". -/
def eqEntriesJ : List (String × Value) → List (String × Value) → Bool
  | [], [] => true
  | (k1, v1) :: r1, (k2, v2) :: r2 => k1 == k2 && eqJson v1 v2 && eqEntriesJ r1 r2
  | _, _ => false
termination_by l1 l2 => osize l1 + osize l2
decreasing_by all_goals (simp [vsize, lsize, osize, tagNone]; try omega)

end

mutual

/-- Translation of `friend bool operator<(const basic_json_view& lhs, const
basic_json_view& rhs)` (json_view.hpp, lines 2105-2248), i.e. the body after
the `&lhs == &rhs` short-circuit.  The switch on `lhs.storage()` has no
`half_value` case, so a half left-hand side falls into the `default:
JSONCONS_UNREACHABLE()` branch; the embedding returns `none` there (the
function is total and defined otherwise).  Array/object payload ordering is
modelled from the spec (element-wise lexicographic; objects ordered by size
on size mismatch). -/
def ltJson : Value → Value → Option Bool
  | .jsonConstPointer p, b =>
    match b with
    | .jsonConstPointer q => ltJson p q
    | bb => ltJson p bb
  | .nullValue t, b => some (decide (storageOrd (.nullValue t) < storageOrd b))
  | .emptyObject t, b =>
    match b with
    | .emptyObject _ => some false
    | .objectValue l _ => some (decide (l.length ≠ 0))
    | .jsonConstPointer q => ltJson (.emptyObject t) q
    | _ => some (decide (storageOrd (.emptyObject t) < storageOrd b))
  | .boolValue x t, b =>
    match b with
    | .boolValue y _ => some (decide (x < y))
    | .jsonConstPointer q => ltJson (.boolValue x t) q
    | _ => some (decide (storageOrd (.boolValue x t) < storageOrd b))
  | .int64Value i t, b =>
    match b with
    | .int64Value j _ => some (decide (i < j))
    | .uint64Value u _ => some (if 0 ≤ i then decide (i.toNat < u) else true)
    | .doubleValue d _ => some (decide (roundIntToF64 i < d))
    | .jsonConstPointer q => ltJson (.int64Value i t) q
    | _ => some (decide (storageOrd (.int64Value i t) < storageOrd b))
  | .uint64Value u t, b =>
    match b with
    | .int64Value j _ => some (if 0 ≤ j then decide (u < j.toNat) else false)
    | .uint64Value w _ => some (decide (u < w))
    | .doubleValue d _ => some (decide (roundIntToF64 u < d))
    | .jsonConstPointer q => ltJson (.uint64Value u t) q
    | _ => some (decide (storageOrd (.uint64Value u t) < storageOrd b))
  | .halfValue _ _, _ => none
  | .doubleValue d t, b =>
    match b with
    | .int64Value j _ => some (decide (d < roundIntToF64 j))
    | .uint64Value u _ => some (decide (d < roundIntToF64 u))
    | .doubleValue d2 _ => some (decide (d < d2))
    | .jsonConstPointer q => ltJson (.doubleValue d t) q
    | _ => some (decide (storageOrd (.doubleValue d t) < storageOrd b))
  | .shortString s t, b =>
    match b with
    | .shortString s2 _ => some (decide (s < s2))
    | .longString s2 _ => some (decide (s < s2))
    | .jsonConstPointer q => ltJson (.shortString s t) q
    | _ => some (decide (storageOrd (.shortString s t) < storageOrd b))
  | .longString s t, b =>
    match b with
    | .shortString s2 _ => some (decide (s < s2))
    | .longString s2 _ => some (decide (s < s2))
    | .jsonConstPointer q => ltJson (.longString s t) q
    | _ => some (decide (storageOrd (.longString s t) < storageOrd b))
  | .byteString bs e t, b =>
    match b with
    | .byteString bs2 _ _ => some (decide (bs < bs2))
    | .jsonConstPointer q => ltJson (.byteString bs e t) q
    | _ => some (decide (storageOrd (.byteString bs e t) < storageOrd b))
  | .arrayValue l t, b =>
    match b with
    | .arrayValue l2 _ => ltListJ l l2
    | .jsonConstPointer q => ltJson (.arrayValue l t) q
    | _ => some (decide (storageOrd (.arrayValue l t) < storageOrd b))
  | .objectValue l t, b =>
    match b with
    | .emptyObject _ => some false
    | .objectValue l2 _ =>
      if l.length = l2.length then ltEntriesJ l l2
      else some (decide (l.length < l2.length))
    | .jsonConstPointer q => ltJson (.objectValue l t) q
    | _ => some (decide (storageOrd (.objectValue l t) < storageOrd b))
termination_by a b => vsize a + vsize b
decreasing_by all_goals (simp [vsize, lsize, osize]; try omega)

/-- Element-wise lexicographic ordering of array payloads.  Modelled from
the spec row "array | array | element-wise lexicographic, recursive"; the
element order is `operator<`, so the unreachable result of a half element
propagates. -/
def ltListJ : List Value → List Value → Option Bool
  | [], [] => some false
  | [], _ :: _ => some true
  | _ :: _, [] => some false
  | a :: as, b :: bs =>
    match ltJson a b with
    | none => none
    | some true => some true
    | some false =>
      match ltJson b a with
      | none => none
      | some true => some false
      | some false => ltListJ as bs
termination_by l1 l2 => lsize l1 + lsize l2
decreasing_by all_goals (simp [vsize, lsize, osize]; try omega)

/-- Lexicographic ordering of two equal-size object payloads by their
key/value sequences (keys by string order, then values by `operator<`).
Modelled from the spec row "object | object | compare underlying
containers' element-wise key/value sequence (ordered by size for `<`)". -/
def ltEntriesJ : List (String × Value) → List (String × Value) → Option Bool
  | [], [] => some false
  | [], _ :: _ => some true
  | _ :: _, [] => some false
  | (k1, v1) :: r1, (k2, v2) :: r2 =>
    if k1 < k2 then some true
    else if k2 < k1 then some false
    else
      match ltJson v1 v2 with
      | none => none
      | some true => some true
      | some false =>
        match ltJson v2 v1 with
        | none => none
        | some true => some false
        | some false => ltEntriesJ r1 r2
termination_by l1 l2 => osize l1 + osize l2
decreasing_by all_goals (simp [vsize, lsize, osize]; try omega)

end

/-- Error outcomes of the throwing accessors/mutators (`JSONCONS_THROW`
sites of `json_view.hpp`); each constructor names the exception raised. -/
inductive JErr : Type where
  | keyNotFound (key : String)
  | notAnObject (key : String)
  | invalidArraySubscript
  | indexOnNonArray
  | notAnObjectForMerge
  | badObjectCast
deriving Repr, DecidableEq

/-- Translation of `std::size_t size() const` (json_view.hpp, lines
1861-1876): array and object values report their container size, the
empty-object placeholder and every non-container report 0, an external
reference forwards to its referent. -/
def sizeJ : Value → Nat
  | .arrayValue l _ => l.length
  | .emptyObject _ => 0
  | .objectValue l _ => l.length
  | .jsonConstPointer p => sizeJ p
  | _ => 0

/-- Translation of `bool is_object() const`. -/
def isObjectJ : Value → Bool
  | .emptyObject _ => true
  | .objectValue _ _ => true
  | .jsonConstPointer p => isObjectJ p
  | _ => false

/-- Translation of `bool is_array() const`. -/
def isArrayJ : Value → Bool
  | .arrayValue _ _ => true
  | .jsonConstPointer p => isArrayJ p
  | _ => false

/-- First entry of an object payload whose key equals `k`.  Models
`json_object::find` from `json_container_types.hpp` (not among the
sources): per the spec, the sorted policy locates a key by binary search
(`lower_bound`, hence the first of adjacent duplicates) and the
insertion-order policy by linear scan, so both return the first entry in
iteration order whose key matches, or `end()`. -/
def findEntry (l : List (String × Value)) (k : String) : Option (String × Value) :=
  l.find? (fun e => e.1 == k)

/-- Translation of `bool contains(const string_view_type& key) const`
(json_view.hpp, lines 2906-2920). -/
def containsJ : Value → String → Bool
  | .objectValue l _, k => (findEntry l k).isSome
  | .jsonConstPointer p, k => containsJ p k
  | _, _ => false

/-- Translation of `std::size_t count(const string_view_type& key) const`
(json_view.hpp, lines 2922-2946): find the first matching entry, then count
matching entries while walking forward from it. -/
def countJ : Value → String → Nat
  | .objectValue l _, k =>
    match l.findIdx? (fun e => e.1 == k) with
    | none => 0
    | some i => ((l.drop i).takeWhile (fun e => e.1 == k)).length
  | .jsonConstPointer p, k => countJ p k
  | _, _ => 0

/-- Translation of `const basic_json_view& at(const string_view_type& key)
const` (json_view.hpp, lines 3449-3471). -/
def atKeyJ : Value → String → Except JErr Value
  | .emptyObject _, k => .error (.keyNotFound k)
  | .objectValue l _, k =>
    match findEntry l k with
    | some e => .ok e.2
    | none => .error (.keyNotFound k)
  | .jsonConstPointer p, k => atKeyJ p k
  | _, k => .error (.notAnObject k)

/-- Translation of `const basic_json_view& at(std::size_t i) const`
(json_view.hpp, lines 3490-3507).  `json_object::at(i)` (container index
access) is modelled from the spec as the i-th member's value with a bounds
check. -/
def atIndexJ : Value → Nat → Except JErr Value
  | .arrayValue l _, i =>
    if h : i < l.length then .ok (l.get ⟨i, h⟩) else .error .invalidArraySubscript
  | .objectValue l _, i =>
    if h : i < l.length then .ok (l.get ⟨i, h⟩).2 else .error .invalidArraySubscript
  | .jsonConstPointer p, i => atIndexJ p i
  | _, _ => .error .indexOnNonArray

/-- Translation of `T get_value_or(const string_view_type& key, U&&
default_value) const` (json_view.hpp, lines 3571-3604).  The conversion
`as<T>()` applied to the found value is a `json_type_traits` template
instantiation, embedded as the function argument `asT`; the default is
already of the result type. -/
def getValueOrJ {α : Type} (asT : Value → α) : Value → String → α → Except JErr α
  | .nullValue _, _, d => .ok d
  | .emptyObject _, _, d => .ok d
  | .objectValue l _, k, d =>
    match findEntry l k with
    | some e => .ok (asT e.2)
    | none => .ok d
  | .jsonConstPointer p, k, d => getValueOrJ asT p k d
  | _, k, _ => .error (.notAnObject k)

mutual

/-- Translation of the copy construction path `Init_(const basic_json_view&
val)` (json_view.hpp, lines 1573-1619): an external reference is copied by
recursing on the referent, containers copy their elements (each element
through the same copy constructor), every other variant copies its payload
verbatim. -/
def copyJ : Value → Value
  | .jsonConstPointer p => copyJ p
  | .arrayValue l t => .arrayValue (copyListJ l) t
  | .objectValue l t => .objectValue (copyEntriesJ l) t
  | v => v
termination_by v => vsize v
decreasing_by all_goals (simp [vsize, lsize, osize]; try omega)

/-- Element-wise copy of an array payload. -/
def copyListJ : List Value → List Value
  | [] => []
  | v :: r => copyJ v :: copyListJ r
termination_by l => lsize l
decreasing_by all_goals (simp [vsize, lsize, osize]; try omega)

/-- Member-wise copy of an object payload. -/
def copyEntriesJ : List (String × Value) → List (String × Value)
  | [] => []
  | (k, v) :: r => (k, copyJ v) :: copyEntriesJ r
termination_by l => osize l
decreasing_by all_goals (simp [vsize, lsize, osize]; try omega)

end

mutual

/-- True when no external-reference variant occurs anywhere in the value:
the value owns its whole tree. -/
def jptrFree : Value → Bool
  | .jsonConstPointer _ => false
  | .arrayValue l _ => jptrFreeList l
  | .objectValue l _ => jptrFreeEntries l
  | _ => true
termination_by v => vsize v
decreasing_by all_goals (simp [vsize, lsize, osize]; try omega)

/-- `jptrFree` on every array element. -/
def jptrFreeList : List Value → Bool
  | [] => true
  | v :: r => jptrFree v && jptrFreeList r
termination_by l => lsize l
decreasing_by all_goals (simp [vsize, lsize, osize]; try omega)

/-- `jptrFree` on every object member. -/
def jptrFreeEntries : List (String × Value) → Bool
  | [] => true
  | (_, v) :: r => jptrFree v && jptrFreeEntries r
termination_by l => osize l
decreasing_by all_goals (simp [vsize, lsize, osize]; try omega)

end

/-- Replace the value of the first entry with key `k`, or append a new
entry.  Models `json_object::insert_or_assign` from
`json_container_types.hpp` (not among the sources), per the spec:
overwrites an existing key's value, otherwise creates one new entry
(entry order abstracted; the sorted policy keeps keys sorted, the
insertion-order policy appends). -/
def insertOrAssignEntry : List (String × Value) → String → Value → List (String × Value)
  | [], k, v => [(k, v)]
  | e :: r, k, v => if e.1 = k then (k, v) :: r else e :: insertOrAssignEntry r k v

/-- Models `json_object::merge(source)` from `json_container_types.hpp`
(not among the sources), per the spec: "for every key in source absent
from this, insert it; existing keys in this are left untouched". -/
def objMergeC (dst src : List (String × Value)) : List (String × Value) :=
  src.foldl (fun acc kv => if (findEntry acc kv.1).isSome then acc else acc ++ [kv]) dst

/-- Models `json_object::merge_or_update(source)` from
`json_container_types.hpp` (not among the sources), per the spec:
"identical but overwrites existing keys with source's value". -/
def objMergeOrUpdateC (dst src : List (String × Value)) : List (String × Value) :=
  src.foldl (fun acc kv => insertOrAssignEntry acc kv.1 kv.2) dst

/-- Translation of `const object& object_value() const` (json_view.hpp,
lines 4202-4217) at the granularity of the member list it exposes: a real
object yields its members, the empty-object placeholder is implicitly
promoted to a zero-size object, an external reference forwards, anything
else throws the bad-object-cast error. -/
def objectEntriesJ : Value → Except JErr (List (String × Value))
  | .objectValue l _ => .ok l
  | .emptyObject _ => .ok []
  | .jsonConstPointer p => objectEntriesJ p
  | _ => .error .badObjectCast

/-- Translation of `void merge(const basic_json_view& source)`
(json_view.hpp, lines 3753-3768): an empty-object target is first promoted
to a real object by `create_object_implicitly()` (which preserves the
semantic tag), an object target merges in place, anything else throws. -/
def mergeJ : Value → Value → Except JErr Value
  | .emptyObject t, src => (objectEntriesJ src).map (fun o => .objectValue (objMergeC [] o) t)
  | .objectValue l t, src => (objectEntriesJ src).map (fun o => .objectValue (objMergeC l o) t)
  | _, _ => .error .notAnObjectForMerge

/-- Translation of `void merge_or_update(const basic_json_view& source)`
(json_view.hpp, lines 3823-3838). -/
def mergeOrUpdateJ : Value → Value → Except JErr Value
  | .emptyObject t, src =>
    (objectEntriesJ src).map (fun o => .objectValue (objMergeOrUpdateC [] o) t)
  | .objectValue l t, src =>
    (objectEntriesJ src).map (fun o => .objectValue (objMergeOrUpdateC l o) t)
  | _, _ => .error .notAnObjectForMerge

/-- Translation of `std::pair<object_iterator,bool> insert_or_assign(const
string_view_type& name, T&& val)` (json_view.hpp, lines 3711-3729),
restricted to the updated document (iterators are not representable). -/
def insertOrAssignJ : Value → String → Value → Except JErr Value
  | .emptyObject t, k, v => .ok (.objectValue (insertOrAssignEntry [] k v) t)
  | .objectValue l t, k, v => .ok (.objectValue (insertOrAssignEntry l k v) t)
  | _, k, _ => .error (.notAnObject k)

/-- Translation of `proxy_type operator[](const string_view_type& name)`
(json_view.hpp, lines 2689-2703): subscripting an empty-object value first
runs `create_object_implicitly()` (rebuilding the value as a real
zero-size object with the same tag) and then, like an object value, returns
a proxy of the document and the key without looking the key up; any other
variant throws.  The result is the updated document paired with the proxy
key. -/
def subscriptKeyJ : Value → String → Except JErr (Value × String)
  | .emptyObject t, k => .ok (.objectValue [] t, k)
  | .objectValue l t, k => .ok (.objectValue l t, k)
  | _, k => .error (.notAnObject k)

/-- Replace the value of the first entry with key `k` (no insertion). -/
def replaceFirstValue : List (String × Value) → String → Value → List (String × Value)
  | [], _, _ => []
  | e :: r, k, c => if e.1 = k then (k, c) :: r else e :: replaceFirstValue r k c

/-- Translation of assignment through a chain of subscript proxies
(`proxy::operator=` together with `proxy::evaluate_with_default`,
json_view.hpp, lines 646-659 and 986-991): the parent chain is evaluated
with defaults — a missing intermediate key is inserted by
`try_emplace(key, json_object_arg, semantic_tag::none, ..)` as a real empty
object, an empty-object node is promoted on the way — and the final key is
`insert_or_assign`ed on the resulting node.  `path` holds the intermediate
proxy keys, `k` the final proxy's key. -/
def assignThroughProxy : Value → List String → String → Value → Except JErr Value
  | v, [], k, x => insertOrAssignJ v k x
  | .emptyObject t, k0 :: rest, k, x =>
    (assignThroughProxy (.objectValue [] tagNone) rest k x).map
      (fun c => .objectValue [(k0, c)] t)
  | .objectValue l t, k0 :: rest, k, x =>
    match findEntry l k0 with
    | some e =>
      (assignThroughProxy e.2 rest k x).map
        (fun c => .objectValue (replaceFirstValue l k0 c) t)
    | none =>
      (assignThroughProxy (.objectValue [] tagNone) rest k x).map
        (fun c => .objectValue (l ++ [(k0, c)]) t)
  | _, k0 :: _, _, _ => .error (.notAnObject k0)

/-- The calls of the visitor protocol (`basic_json_visitor`), one
constructor per method invoked by `dump_noflush`/`dump`: the structural
events, the key event, the per-kind leaf emitters (with their semantic
tag), the two byte-string forms (plain tag, or extension tag when the
semantic tag is `ext`), and `flush`. -/
inductive Event : Type where
  | beginObjectE (size : Nat) (t : Tag)
  | endObjectE
  | beginArrayE (size : Nat) (t : Tag)
  | endArrayE
  | keyE (k : String)
  | nullE (t : Tag)
  | boolE (b : Bool) (t : Tag)
  | int64E (i : Int) (t : Tag)
  | uint64E (u : Nat) (t : Tag)
  | halfE (bits : Nat) (t : Tag)
  | doubleE (d : ℚ) (t : Tag)
  | stringE (s : String) (t : Tag)
  | byteStringE (bytes : List Nat) (t : Tag)
  | byteStringExtE (bytes : List Nat) (ext : Nat)
  | flushE
deriving Repr, DecidableEq

/-- A visitor over internal state `S`.  Each protocol method takes the
current state and error code and returns the new state, the new error code
and its continue/stop signal (`true` = continue); `flush` returns only the
new state.  The C++ interface has one virtual per event kind; collapsing
them into `onEvent` over `Event` is behaviour-preserving because the event
constructor determines the method. -/
structure Visitor (S : Type) where
  onEvent : Event → S → Bool → S × Bool × Bool
  flush : S → S

mutual

/-- Translation of `void dump_noflush(basic_json_visitor& visitor,
std::error_code& ec) const` (json_view.hpp, lines 4221-4297).  The result
is the visitor state and error code after the walk.  Faithful details: the
return values of `key` and of every leaf emitter are discarded; only the
result of `begin_object`/`begin_array` is kept in `more`, which the member
loops test but never update, and which guards the matching
`end_object`/`end_array`; the empty-object case emits `begin_object(0)`
and `end_object` unconditionally; the error code is threaded through but
never tested. -/
def dumpNoflushJ {S : Type} (vis : Visitor S) : Value → S → Bool → S × Bool
  | .shortString s t, st, ec =>
    let r := vis.onEvent (.stringE s t) st ec
    (r.1, r.2.1)
  | .longString s t, st, ec =>
    let r := vis.onEvent (.stringE s t) st ec
    (r.1, r.2.1)
  | .byteString bs ext t, st, ec =>
    if t = tagExt then
      let r := vis.onEvent (.byteStringExtE bs ext) st ec
      (r.1, r.2.1)
    else
      let r := vis.onEvent (.byteStringE bs t) st ec
      (r.1, r.2.1)
  | .halfValue h t, st, ec =>
    let r := vis.onEvent (.halfE h t) st ec
    (r.1, r.2.1)
  | .doubleValue d t, st, ec =>
    let r := vis.onEvent (.doubleE d t) st ec
    (r.1, r.2.1)
  | .int64Value i t, st, ec =>
    let r := vis.onEvent (.int64E i t) st ec
    (r.1, r.2.1)
  | .uint64Value u t, st, ec =>
    let r := vis.onEvent (.uint64E u t) st ec
    (r.1, r.2.1)
  | .boolValue b t, st, ec =>
    let r := vis.onEvent (.boolE b t) st ec
    (r.1, r.2.1)
  | .nullValue t, st, ec =>
    let r := vis.onEvent (.nullE t) st ec
    (r.1, r.2.1)
  | .emptyObject t, st, ec =>
    let r1 := vis.onEvent (.beginObjectE 0 t) st ec
    let r2 := vis.onEvent .endObjectE r1.1 r1.2.1
    (r2.1, r2.2.1)
  | .objectValue l t, st, ec =>
    let r1 := vis.onEvent (.beginObjectE l.length t) st ec
    if r1.2.2 then
      let r2 := dumpMembersJ vis l r1.1 r1.2.1
      let r3 := vis.onEvent .endObjectE r2.1 r2.2
      (r3.1, r3.2.1)
    else (r1.1, r1.2.1)
  | .arrayValue l t, st, ec =>
    let r1 := vis.onEvent (.beginArrayE l.length t) st ec
    if r1.2.2 then
      let r2 := dumpElemsJ vis l r1.1 r1.2.1
      let r3 := vis.onEvent .endArrayE r2.1 r2.2
      (r3.1, r3.2.1)
    else (r1.1, r1.2.1)
  | .jsonConstPointer p, st, ec => dumpNoflushJ vis p st ec
termination_by v _ _ => vsize v
decreasing_by all_goals (simp [vsize, lsize, osize]; try omega)

/-- The member loop of the object case of `dump_noflush`: each member's
key event followed by the member value's own traversal. -/
def dumpMembersJ {S : Type} (vis : Visitor S) : List (String × Value) → S → Bool → S × Bool
  | [], st, ec => (st, ec)
  | (k, v) :: r, st, ec =>
    let r1 := vis.onEvent (.keyE k) st ec
    let r2 := dumpNoflushJ vis v r1.1 r1.2.1
    dumpMembersJ vis r r2.1 r2.2
termination_by l _ _ => osize l
decreasing_by all_goals (simp [vsize, lsize, osize]; try omega)

/-- The element loop of the array case of `dump_noflush`. -/
def dumpElemsJ {S : Type} (vis : Visitor S) : List Value → S → Bool → S × Bool
  | [], st, ec => (st, ec)
  | v :: r, st, ec =>
    let r1 := dumpNoflushJ vis v st ec
    dumpElemsJ vis r r1.1 r1.2
termination_by l _ _ => lsize l
decreasing_by all_goals (simp [vsize, lsize, osize]; try omega)

end

/-- Translation of `void dump(basic_json_visitor& visitor, std::error_code&
ec) const` (json_view.hpp, lines 2842-2851): run `dump_noflush`, then
`flush` the visitor unless the error code is set. -/
def dumpJ {S : Type} (vis : Visitor S) (v : Value) (st : S) (ec : Bool) : S × Bool :=
  let r := dumpNoflushJ vis v st ec
  if r.2 then r else (vis.flush r.1, r.2)

/-- The recording visitor: its state is the list of protocol calls made so
far; `oracle events ec e` supplies, as a function of the history, the
error-code and continue/stop responses an arbitrary visitor could give. -/
def recVisitor (oracle : List Event → Bool → Event → Bool × Bool) : Visitor (List Event) where
  onEvent := fun e st ec => (st ++ [e], (oracle st ec e).1, (oracle st ec e).2)
  flush := fun st => st ++ [.flushE]

/-- The oracle of a visitor that always continues and never sets the error
code. -/
def noStopOracle : List Event → Bool → Event → Bool × Bool :=
  fun _ ec _ => (ec, true)

mutual

/-- The event sequence the spec prescribes for a visitor that never signals
stop: a depth-first walk emitting object members in container iteration
order, each key event immediately followed by that key's value's own
traversal, and array elements in index order. -/
def dfsEvents : Value → List Event
  | .nullValue t => [.nullE t]
  | .emptyObject t => [.beginObjectE 0 t, .endObjectE]
  | .boolValue b t => [.boolE b t]
  | .int64Value i t => [.int64E i t]
  | .uint64Value u t => [.uint64E u t]
  | .halfValue h t => [.halfE h t]
  | .doubleValue d t => [.doubleE d t]
  | .shortString s t => [.stringE s t]
  | .longString s t => [.stringE s t]
  | .byteString bs ext t =>
    if t = tagExt then [.byteStringExtE bs ext] else [.byteStringE bs t]
  | .arrayValue l t => .beginArrayE l.length t :: (dfsElems l ++ [.endArrayE])
  | .objectValue l t => .beginObjectE l.length t :: (dfsMembers l ++ [.endObjectE])
  | .jsonConstPointer p => dfsEvents p
termination_by v => vsize v
decreasing_by all_goals (simp [vsize, lsize, osize]; try omega)

/-- Depth-first events of a member list: key, then the value's events. -/
def dfsMembers : List (String × Value) → List Event
  | [] => []
  | (k, v) :: r => .keyE k :: (dfsEvents v ++ dfsMembers r)
termination_by l => osize l
decreasing_by all_goals (simp [vsize, lsize, osize]; try omega)

/-- Depth-first events of an element list, in index order. -/
def dfsElems : List Value → List Event
  | [] => []
  | v :: r => dfsEvents v ++ dfsElems r
termination_by l => lsize l
decreasing_by all_goals (simp [vsize, lsize, osize]; try omega)

end

/-- Replace the stored semantic tag of a value, leaving the payload
unchanged.  An external reference stores no independent tag (its
`tag()` forwards to the referent), so it is left unchanged. -/
def retag : Value → Tag → Value
  | .nullValue _, t => .nullValue t
  | .emptyObject _, t => .emptyObject t
  | .boolValue b _, t => .boolValue b t
  | .int64Value i _, t => .int64Value i t
  | .uint64Value u _, t => .uint64Value u t
  | .halfValue h _, t => .halfValue h t
  | .doubleValue d _, t => .doubleValue d t
  | .shortString s _, t => .shortString s t
  | .longString s _, t => .longString s t
  | .byteString bs e _, t => .byteString bs e t
  | .arrayValue l _, t => .arrayValue l t
  | .objectValue l _, t => .objectValue l t
  | .jsonConstPointer p, _ => .jsonConstPointer p

/-- True exactly on the external-reference variant. -/
def isJptr : Value → Bool
  | .jsonConstPointer _ => true
  | _ => false

mutual

/-- True when no half variant occurs anywhere in the value.  `operator<`
has no case for a half left-hand side (see `ltJson`), so ordering is only
defined on half-free values. -/
def halfFree : Value → Bool
  | .halfValue _ _ => false
  | .jsonConstPointer p => halfFree p
  | .arrayValue l _ => halfFreeList l
  | .objectValue l _ => halfFreeEntries l
  | _ => true
termination_by v => vsize v
decreasing_by all_goals (simp [vsize, lsize, osize]; try omega)

/-- `halfFree` on every array element. -/
def halfFreeList : List Value → Bool
  | [] => true
  | v :: r => halfFree v && halfFreeList r
termination_by l => lsize l
decreasing_by all_goals (simp [vsize, lsize, osize]; try omega)

/-- `halfFree` on every object member. -/
def halfFreeEntries : List (String × Value) → Bool
  | [] => true
  | (_, v) :: r => halfFree v && halfFreeEntries r
termination_by l => osize l
decreasing_by all_goals (simp [vsize, lsize, osize]; try omega)

end

mutual

/-- True when every numeric payload of the value compares exactly: every
int64/uint64 payload has magnitude at most `2^53` (so its promotion to
double by `static_cast<double>` is exact) and every half payload is a
finite pattern other than negative zero (so `decode_half` is injective on
it).  Outside this fragment the promotion to double loses information and
equality stops being transitive. -/
def numExact : Value → Bool
  | .int64Value i _ => decide (i.natAbs ≤ 2 ^ 53)
  | .uint64Value u _ => decide (u ≤ 2 ^ 53)
  | .halfValue h _ => decide (h < 65536 ∧ h / 1024 % 32 ≠ 31 ∧ h ≠ 32768)
  | .jsonConstPointer p => numExact p
  | .arrayValue l _ => numExactList l
  | .objectValue l _ => numExactEntries l
  | _ => true
termination_by v => vsize v
decreasing_by all_goals (simp [vsize, lsize, osize]; try omega)

/-- `numExact` on every array element. -/
def numExactList : List Value → Bool
  | [] => true
  | v :: r => numExact v && numExactList r
termination_by l => lsize l
decreasing_by all_goals (simp [vsize, lsize, osize]; try omega)

/-- `numExact` on every object member. -/
def numExactEntries : List (String × Value) → Bool
  | [] => true
  | (_, v) :: r => numExact v && numExactEntries r
termination_by l => osize l
decreasing_by all_goals (simp [vsize, lsize, osize]; try omega)

end

/-- Canonical comparison keys: `eqJson` restricted to `numExact` values
compares two values equal exactly when their keys coincide.  All four
numeric variants denote into one rational; both string variants denote
into their content; byte strings denote into their bytes (the extension
tag is not compared); the empty-object placeholder denotes as a zero-size
object. -/
inductive K : Type where
  | nullK
  | boolK (b : Bool)
  | numK (q : ℚ)
  | strK (s : String)
  | bstrK (bytes : List Nat)
  | arrK (l : List K)
  | objK (l : List (String × K))

mutual

/-- The canonical comparison key of a value (see `K`). -/
def kdenote : Value → K
  | .nullValue _ => .nullK
  | .emptyObject _ => .objK []
  | .boolValue b _ => .boolK b
  | .int64Value i _ => .numK (i : ℚ)
  | .uint64Value u _ => .numK (u : ℚ)
  | .halfValue h _ => .numK (decodeHalf h)
  | .doubleValue d _ => .numK d
  | .shortString s _ => .strK s
  | .longString s _ => .strK s
  | .byteString bs _ _ => .bstrK bs
  | .arrayValue l _ => .arrK (kdenoteList l)
  | .objectValue l _ => .objK (kdenoteEntries l)
  | .jsonConstPointer p => kdenote p
termination_by v => vsize v
decreasing_by all_goals (simp [vsize, lsize, osize]; try omega)

/-- Keys of an array payload. -/
def kdenoteList : List Value → List K
  | [] => []
  | v :: r => kdenote v :: kdenoteList r
termination_by l => lsize l
decreasing_by all_goals (simp [vsize, lsize, osize]; try omega)

/-- Keys of an object payload. -/
def kdenoteEntries : List (String × Value) → List (String × K)
  | [] => []
  | (k, v) :: r => (k, kdenote v) :: kdenoteEntries r
termination_by l => osize l
decreasing_by all_goals (simp [vsize, lsize, osize]; try omega)

end

/-- The member sequence an object-kind value presents (a real object its
entries, the empty-object placeholder none, an external reference its
referent's); non-objects present none. -/
def specEntriesOf : Value → List (String × Value)
  | .objectValue l _ => l
  | .jsonConstPointer p => specEntriesOf p
  | _ => []

/-- Length of the run of entries with key `k` at the head of the list. -/
def runLen : List (String × Value) → String → Nat
  | [], _ => 0
  | e :: r, k => if e.1 == k then runLen r k + 1 else 0

/-- Number of contiguous entries with key `k` starting at the first entry
whose key is `k` (0 when there is none). -/
def firstRun : List (String × Value) → String → Nat
  | [], _ => 0
  | e :: r, k => if e.1 == k then runLen r k + 1 else firstRun r k

/-- The count the claim describes, written from its words: 0 when the
value is not an object and 0 when the key is absent, otherwise the number
of contiguous entries with that key starting at the first match — not the
global number of occurrences.  Compared with the translation `countJ`. -/
def specCountJ (v : Value) (k : String) : Nat :=
  if isObjectJ v then firstRun (specEntriesOf v) k else 0

/-- Oracle of a visitor that signals stop on every `int64_value` call and
continues otherwise, never touching the error code: used to exhibit the
actual abort semantics of `dump`. -/
def stopOnInt64Oracle : List Event → Bool → Event → Bool × Bool :=
  fun _ ec e =>
    match e with
    | .int64E _ _ => (ec, false)
    | _ => (ec, true)

/-- Equality is reference-transparent: a `json_const_pointer` operand on
either side is dereferenced (`operator==`, every `lhs.storage()` case has a
`json_const_pointer` case for the right-hand side, and the
`json_const_pointer` left-hand case dereferences). -/
lemma eqJson_jptr : ∀ n : Nat, ∀ x q : Value, vsize x + vsize q ≤ n →
    eqJson x (.jsonConstPointer q) = eqJson x q ∧
    eqJson (.jsonConstPointer q) x = eqJson q x := by
  intro n
  induction n using Nat.strong_induction_on with
  | _ n ih =>
    intro x q hle
    constructor
    · cases x with
      | jsonConstPointer p =>
        have hB : eqJson (.jsonConstPointer p) q = eqJson p q := by
          rcases n with _ | m
          · simp [vsize] at hle
          · exact (ih m (Nat.lt_succ_self m) q p (by simp [vsize] at hle; omega)).2
        simp [eqJson, hB]
      | _ => simp [eqJson]
    · cases x with
      | jsonConstPointer p =>
        have hA : eqJson q (.jsonConstPointer p) = eqJson q p := by
          rcases n with _ | m
          · simp [vsize] at hle
          · exact (ih m (Nat.lt_succ_self m) q p (by simp [vsize] at hle; omega)).1
        simp [eqJson, hA]
      | _ => simp [eqJson]

/-- Dereferencing corollary of `eqJson_jptr`, right operand. -/
lemma eqJson_jptrR (x q : Value) : eqJson x (.jsonConstPointer q) = eqJson x q :=
  (eqJson_jptr (vsize x + vsize q) x q le_rfl).1

/-- Dereferencing corollary of `eqJson_jptr`, left operand. -/
lemma eqJson_jptrL (q x : Value) : eqJson (.jsonConstPointer q) x = eqJson q x :=
  (eqJson_jptr (vsize x + vsize q) x q le_rfl).2

/-- Reflexivity of `operator==` on the whole variant set (for a value
compared with itself the C++ entry point already short-circuits on the
address test; this lemma shows the payload comparison agrees). -/
lemma eqJson_refl_all : ∀ n : Nat,
    (∀ v, vsize v ≤ n → eqJson v v = true) ∧
    (∀ l, lsize l ≤ n → eqListJ l l = true) ∧
    (∀ l, osize l ≤ n → eqEntriesJ l l = true) := by
  intro n
  induction n using Nat.strong_induction_on with
  | _ n ih =>
    refine ⟨?_, ?_, ?_⟩
    · intro v hv
      cases v with
      | jsonConstPointer p =>
        rcases n with _ | m
        · simp [vsize] at hv
        · have := (ih m (Nat.lt_succ_self m)).1 p (by simp [vsize] at hv; omega)
          simp [eqJson, this]
      | arrayValue l t =>
        rcases n with _ | m
        · simp [vsize] at hv
        · have := (ih m (Nat.lt_succ_self m)).2.1 l (by simp [vsize] at hv; omega)
          simp [eqJson, this]
      | objectValue l t =>
        rcases n with _ | m
        · simp [vsize] at hv
        · have := (ih m (Nat.lt_succ_self m)).2.2 l (by simp [vsize] at hv; omega)
          simp [eqJson, this]
      | _ => simp [eqJson]
    · intro l hl
      cases l with
      | nil => simp [eqListJ]
      | cons v r =>
        rcases n with _ | m
        · simp [lsize] at hl
        · have h1 := (ih m (Nat.lt_succ_self m)).1 v (by simp [lsize] at hl; omega)
          have h2 := (ih m (Nat.lt_succ_self m)).2.1 r (by simp [lsize] at hl; omega)
          simp [eqListJ, h1, h2]
    · intro l hl
      cases l with
      | nil => simp [eqEntriesJ]
      | cons e r =>
        rcases n with _ | m
        · simp [osize] at hl
        · rcases e with ⟨k, v⟩
          have h1 := (ih m (Nat.lt_succ_self m)).1 v (by simp [osize] at hl; omega)
          have h2 := (ih m (Nat.lt_succ_self m)).2.2 r (by simp [osize] at hl; omega)
          simp [eqEntriesJ, h1, h2]

/-- Commutation of lawful boolean equality tests. -/
lemma beqSwap {α : Type} [BEq α] [LawfulBEq α] (a b : α) : (a == b) = (b == a) := by
  by_cases h : a = b
  · subst h
    rfl
  · rw [beq_eq_false_iff_ne.mpr h, beq_eq_false_iff_ne.mpr (Ne.symm h)]

/-- Symmetry of `operator==` over the whole variant set: every promotion
rule of the equality switch has a mirror-image rule. -/
lemma eqJson_symm_all : ∀ n : Nat,
    (∀ x y, vsize x + vsize y ≤ n → eqJson x y = eqJson y x) ∧
    (∀ l l2, lsize l + lsize l2 ≤ n → eqListJ l l2 = eqListJ l2 l) ∧
    (∀ l l2, osize l + osize l2 ≤ n → eqEntriesJ l l2 = eqEntriesJ l2 l) := by
  intro n
  induction n using Nat.strong_induction_on with
  | _ n ih =>
    have ihV : ∀ x y, vsize x + vsize y < n → eqJson x y = eqJson y x := by
      intro x y h
      rcases n with _ | m
      · omega
      · exact (ih m (Nat.lt_succ_self m)).1 x y (by omega)
    have ihL : ∀ l l2, lsize l + lsize l2 < n → eqListJ l l2 = eqListJ l2 l := by
      intro l l2 h
      rcases n with _ | m
      · omega
      · exact (ih m (Nat.lt_succ_self m)).2.1 l l2 (by omega)
    have ihE : ∀ l l2, osize l + osize l2 < n → eqEntriesJ l l2 = eqEntriesJ l2 l := by
      intro l l2 h
      rcases n with _ | m
      · omega
      · exact (ih m (Nat.lt_succ_self m)).2.2 l l2 (by omega)
    refine ⟨?_, ?_, ?_⟩
    · intro x y hxy
      cases x with
      | jsonConstPointer p =>
        rw [eqJson_jptrL, show eqJson y (Value.jsonConstPointer p) = eqJson y p from
          eqJson_jptrR y p]
        apply ihV
        simp [vsize] at hxy
        omega
      | nullValue t =>
        cases y with
        | jsonConstPointer q =>
          rw [eqJson_jptrR, eqJson_jptrL]
          apply ihV
          simp [vsize] at hxy ⊢
          omega
        | _ => simp [eqJson]
      | emptyObject t =>
        cases y with
        | jsonConstPointer q =>
          rw [eqJson_jptrR, eqJson_jptrL]
          apply ihV
          simp [vsize] at hxy ⊢
          omega
        | _ => simp [eqJson]
      | boolValue b t =>
        cases y with
        | jsonConstPointer q =>
          rw [eqJson_jptrR, eqJson_jptrL]
          apply ihV
          simp [vsize] at hxy ⊢
          omega
        | boolValue c t2 =>
          simp only [eqJson]
          exact beqSwap b c
        | _ => simp [eqJson]
      | int64Value i t =>
        cases y with
        | jsonConstPointer q =>
          rw [eqJson_jptrR, eqJson_jptrL]
          apply ihV
          simp [vsize] at hxy ⊢
          omega
        | int64Value j t2 =>
          simp only [eqJson]
          exact beqSwap i j
        | uint64Value u t2 =>
          simp only [eqJson]
          by_cases h0 : (0 : Int) ≤ i <;> simp [h0, beqSwap]
        | halfValue h t2 =>
          simp only [eqJson]
          exact beqSwap _ _
        | doubleValue d t2 =>
          simp only [eqJson]
          exact beqSwap _ _
        | _ => simp [eqJson]
      | uint64Value u t =>
        cases y with
        | jsonConstPointer q =>
          rw [eqJson_jptrR, eqJson_jptrL]
          apply ihV
          simp [vsize] at hxy ⊢
          omega
        | int64Value j t2 =>
          simp only [eqJson]
          by_cases h0 : (0 : Int) ≤ j <;> simp [h0, beqSwap]
        | uint64Value w t2 =>
          simp only [eqJson]
          exact beqSwap u w
        | halfValue h t2 =>
          simp only [eqJson]
          exact beqSwap _ _
        | doubleValue d t2 =>
          simp only [eqJson]
          exact beqSwap _ _
        | _ => simp [eqJson]
      | halfValue h t =>
        cases y with
        | jsonConstPointer q =>
          rw [eqJson_jptrR, eqJson_jptrL]
          apply ihV
          simp [vsize] at hxy ⊢
          omega
        | halfValue h2 t2 =>
          simp only [eqJson]
          exact beqSwap h h2
        | int64Value j t2 =>
          simp only [eqJson]
          exact beqSwap _ _
        | uint64Value w t2 =>
          simp only [eqJson]
          exact beqSwap _ _
        | doubleValue d t2 =>
          simp only [eqJson]
          exact beqSwap _ _
        | _ => simp [eqJson]
      | doubleValue d t =>
        cases y with
        | jsonConstPointer q =>
          rw [eqJson_jptrR, eqJson_jptrL]
          apply ihV
          simp [vsize] at hxy ⊢
          omega
        | int64Value j t2 =>
          simp only [eqJson]
          exact beqSwap _ _
        | uint64Value w t2 =>
          simp only [eqJson]
          exact beqSwap _ _
        | halfValue h2 t2 =>
          simp only [eqJson]
          exact beqSwap _ _
        | doubleValue d2 t2 =>
          simp only [eqJson]
          exact beqSwap _ _
        | _ => simp [eqJson]
      | shortString str t =>
        cases y with
        | jsonConstPointer q =>
          rw [eqJson_jptrR, eqJson_jptrL]
          apply ihV
          simp [vsize] at hxy ⊢
          omega
        | shortString s2 t2 =>
          simp only [eqJson]
          exact beqSwap _ _
        | longString s2 t2 =>
          simp only [eqJson]
          exact beqSwap _ _
        | _ => simp [eqJson]
      | longString str t =>
        cases y with
        | jsonConstPointer q =>
          rw [eqJson_jptrR, eqJson_jptrL]
          apply ihV
          simp [vsize] at hxy ⊢
          omega
        | shortString s2 t2 =>
          simp only [eqJson]
          exact beqSwap _ _
        | longString s2 t2 =>
          simp only [eqJson]
          exact beqSwap _ _
        | _ => simp [eqJson]
      | byteString bs e t =>
        cases y with
        | jsonConstPointer q =>
          rw [eqJson_jptrR, eqJson_jptrL]
          apply ihV
          simp [vsize] at hxy ⊢
          omega
        | byteString bs2 e2 t2 =>
          simp only [eqJson]
          exact beqSwap _ _
        | _ => simp [eqJson]
      | arrayValue l t =>
        cases y with
        | jsonConstPointer q =>
          rw [eqJson_jptrR, eqJson_jptrL]
          apply ihV
          simp [vsize] at hxy ⊢
          omega
        | arrayValue l2 t2 =>
          simp only [eqJson]
          apply ihL
          simp [vsize] at hxy
          omega
        | _ => simp [eqJson]
      | objectValue l t =>
        cases y with
        | jsonConstPointer q =>
          rw [eqJson_jptrR, eqJson_jptrL]
          apply ihV
          simp [vsize] at hxy ⊢
          omega
        | objectValue l2 t2 =>
          simp only [eqJson]
          apply ihE
          simp [vsize] at hxy
          omega
        | _ => simp [eqJson]
    · intro l l2 hl
      cases l with
      | nil => cases l2 <;> simp [eqListJ]
      | cons v r =>
        cases l2 with
        | nil => simp [eqListJ]
        | cons w r2 =>
          have h1 : eqJson v w = eqJson w v := by
            apply ihV
            simp [lsize] at hl
            omega
          have h2 : eqListJ r r2 = eqListJ r2 r := by
            apply ihL
            simp [lsize] at hl
            omega
          simp [eqListJ, h1, h2]
    · intro l l2 hl
      cases l with
      | nil => cases l2 <;> simp [eqEntriesJ]
      | cons e r =>
        cases l2 with
        | nil => simp [eqEntriesJ]
        | cons f r2 =>
          rcases e with ⟨k1, v1⟩
          rcases f with ⟨k2, v2⟩
          have h1 : eqJson v1 v2 = eqJson v2 v1 := by
            apply ihV
            simp [osize] at hl
            omega
          have h2 : eqEntriesJ r r2 = eqEntriesJ r2 r := by
            apply ihE
            simp [osize] at hl
            omega
          simp [eqEntriesJ, h1, h2, beqSwap k1 k2]

/-- C1: cross-kind equality follows the promotion table: an int64 and a
uint64 compare equal iff the int64 is nonnegative and the two agree as
unsigned; an int64 or uint64 compares to a double or half by promotion to
double (`static_cast<double>`, embedded as `roundIntToF64`) against the
double payload resp. the decoded half; short and long strings compare by
character content irrespective of which storage kind holds each side; an
empty-object value equals an object value iff that object has size 0, in
both orders. -/
theorem C1_cross_kind_equality :
    (∀ (i : Int) (u : Nat) (t1 t2 : Tag),
      (eqJson (.int64Value i t1) (.uint64Value u t2) = true ↔ 0 ≤ i ∧ i.toNat = u) ∧
      (eqJson (.uint64Value u t2) (.int64Value i t1) = true ↔ 0 ≤ i ∧ i.toNat = u)) ∧
    (∀ (i : Int) (d : ℚ) (t1 t2 : Tag),
      (eqJson (.int64Value i t1) (.doubleValue d t2) = true ↔ roundIntToF64 i = d) ∧
      (eqJson (.doubleValue d t2) (.int64Value i t1) = true ↔ roundIntToF64 i = d)) ∧
    (∀ (u : Nat) (d : ℚ) (t1 t2 : Tag),
      (eqJson (.uint64Value u t1) (.doubleValue d t2) = true ↔ roundIntToF64 u = d) ∧
      (eqJson (.doubleValue d t2) (.uint64Value u t1) = true ↔ roundIntToF64 u = d)) ∧
    (∀ (i : Int) (h : Nat) (t1 t2 : Tag),
      (eqJson (.int64Value i t1) (.halfValue h t2) = true ↔ roundIntToF64 i = decodeHalf h) ∧
      (eqJson (.halfValue h t2) (.int64Value i t1) = true ↔ roundIntToF64 i = decodeHalf h)) ∧
    (∀ (u : Nat) (h : Nat) (t1 t2 : Tag),
      (eqJson (.uint64Value u t1) (.halfValue h t2) = true ↔ roundIntToF64 u = decodeHalf h) ∧
      (eqJson (.halfValue h t2) (.uint64Value u t1) = true ↔ roundIntToF64 u = decodeHalf h)) ∧
    (∀ (a b : String) (t1 t2 : Tag),
      (eqJson (.shortString a t1) (.longString b t2) = true ↔ a = b) ∧
      (eqJson (.longString a t1) (.shortString b t2) = true ↔ a = b) ∧
      (eqJson (.shortString a t1) (.shortString b t2) = true ↔ a = b) ∧
      (eqJson (.longString a t1) (.longString b t2) = true ↔ a = b)) ∧
    (∀ (l : List (String × Value)) (t1 t2 : Tag),
      (eqJson (.emptyObject t1) (.objectValue l t2) = true ↔ sizeJ (.objectValue l t2) = 0) ∧
      (eqJson (.objectValue l t2) (.emptyObject t1) = true ↔ sizeJ (.objectValue l t2) = 0)) := by
  refine ⟨?_, ?_, ?_, ?_, ?_, ?_, ?_⟩
  · intro i u t1 t2
    constructor
    · simp only [eqJson]
      by_cases h0 : (0 : Int) ≤ i <;> simp [h0]
    · simp only [eqJson]
      by_cases h0 : (0 : Int) ≤ i <;> simp [h0]
      exact eq_comm
  · intro i d t1 t2
    refine ⟨by simp [eqJson], ?_⟩
    simp [eqJson]
    exact eq_comm
  · intro u d t1 t2
    refine ⟨by simp [eqJson], ?_⟩
    simp [eqJson]
    exact eq_comm
  · intro i h t1 t2
    refine ⟨by simp [eqJson], ?_⟩
    simp [eqJson]
    exact eq_comm
  · intro u h t1 t2
    refine ⟨by simp [eqJson], ?_⟩
    simp [eqJson]
    exact eq_comm
  · intro a b t1 t2
    refine ⟨?_, ?_, ?_, ?_⟩ <;> simp [eqJson]
  · intro l t1 t2
    constructor <;> simp [eqJson, sizeJ]

/-- C2: the claim says `operator<` is defined over the full variant set,
half values included, and that the unreachable default branch is never
reached; in the code the switch on `lhs.storage()` has no `half_value`
case, so every comparison with a half left-hand side falls into the
`default: JSONCONS_UNREACHABLE()` branch (embedded as `none`), and a half
right-hand side against an int64/uint64 left-hand side is not promoted to
double but ordered by the storage discriminator, so it always compares as
greater irrespective of the numeric values. -/
theorem C2_half_lt_reaches_unreachable :
    (∀ (h t : Nat) (rhs : Value), ltJson (.halfValue h t) rhs = none) ∧
    (∀ (i : Int) (t1 : Tag) (h : Nat) (t2 : Tag),
      ltJson (.int64Value i t1) (.halfValue h t2) = some true) ∧
    (∀ (u : Nat) (t1 : Tag) (h : Nat) (t2 : Tag),
      ltJson (.uint64Value u t1) (.halfValue h t2) = some true) := by
  refine ⟨?_, ?_, ?_⟩
  · intro h t rhs
    simp [ltJson]
  · intro i t1 h t2
    simp [ltJson, storageOrd]
  · intro u t1 h t2
    simp [ltJson, storageOrd]

/-- The head run length is the length of the matching `takeWhile` prefix. -/
lemma runLen_eq_takeWhile (l : List (String × Value)) (k : String) :
    runLen l k = (l.takeWhile (fun e => e.1 == k)).length := by
  induction l with
  | nil => simp [runLen]
  | cons e r ih =>
    by_cases h : (e.1 == k) = true <;> simp [runLen, List.takeWhile_cons, h, ih]

/-- The `find`-then-walk loop of `count` computes the contiguous run at the
first match. -/
lemma findIdx_walk_eq_firstRun (l : List (String × Value)) (k : String) :
    (match l.findIdx? (fun e => e.1 == k) with
      | none => 0
      | some i => ((l.drop i).takeWhile (fun e => e.1 == k)).length) = firstRun l k := by
  induction l with
  | nil => simp [List.findIdx?, firstRun]
  | cons e r ih =>
    by_cases h : (e.1 == k) = true
    · simp [List.findIdx?_cons, h, firstRun, List.takeWhile_cons, runLen_eq_takeWhile]
    · simp only [List.findIdx?_cons, h, if_neg]
      simp only [Bool.false_eq_true, if_false]
      rw [show firstRun (e :: r) k = firstRun r k by simp [firstRun, h]]
      rw [← ih]
      cases hf : r.findIdx? (fun e => e.1 == k) <;> simp [hf]

/-- `count` agrees with the claim's description on every value. -/
lemma countJ_eq_spec : ∀ n : Nat, ∀ v, vsize v ≤ n → ∀ k, countJ v k = specCountJ v k := by
  intro n
  induction n using Nat.strong_induction_on with
  | _ n ih =>
    intro v hv k
    cases v with
    | objectValue l t =>
      have := findIdx_walk_eq_firstRun l k
      simp [countJ, specCountJ, isObjectJ, specEntriesOf, this]
    | emptyObject t => simp [countJ, specCountJ, isObjectJ, specEntriesOf, firstRun]
    | jsonConstPointer p =>
      rcases n with _ | m
      · simp [vsize] at hv
      · have := ih m (Nat.lt_succ_self m) p (by simp [vsize] at hv; omega) k
        simp [countJ, specCountJ, isObjectJ, specEntriesOf, this]
    | _ => simp [countJ, specCountJ, isObjectJ, specEntriesOf]

/-- C9: `count(key)` returns 0 when the value is not an object or lacks the
key, and otherwise the number of contiguous entries with that key starting
at the first match (`specCountJ`, written from the claim's words) — not the
global number of occurrences: on `{"a":_, "b":_, "a":_}` (insertion-order
object with non-adjacent duplicate keys) it returns 1 although two entries
carry the key. -/
theorem C9_count_contiguous :
    (∀ v k, countJ v k = specCountJ v k) ∧
    countJ (.objectValue
      [("a", .nullValue 0), ("b", .nullValue 0), ("a", .nullValue 0)] 0) "a" = 1 ∧
    (List.filter (fun e => e.1 == "a")
      [("a", Value.nullValue 0), ("b", .nullValue 0), ("a", .nullValue 0)]).length = 2 := by
  refine ⟨fun v k => countJ_eq_spec (vsize v) v le_rfl k, ?_, ?_⟩
  · simp [countJ, List.findIdx?_cons]
  · simp [List.filter]

/-- `at(key)` agrees with its kind/containment characterization. -/
lemma atKeyJ_characterization : ∀ n : Nat, ∀ v, vsize v ≤ n → ∀ k,
    atKeyJ v k =
      (if isObjectJ v then
        (match findEntry (specEntriesOf v) k with
          | some e => .ok e.2
          | none => .error (.keyNotFound k))
      else .error (.notAnObject k)) := by
  intro n
  induction n using Nat.strong_induction_on with
  | _ n ih =>
    intro v hv k
    cases v with
    | objectValue l t => simp [atKeyJ, isObjectJ, specEntriesOf]
    | emptyObject t => simp [atKeyJ, isObjectJ, specEntriesOf, findEntry]
    | jsonConstPointer p =>
      rcases n with _ | m
      · simp [vsize] at hv
      · have := ih m (Nat.lt_succ_self m) p (by simp [vsize] at hv; omega) k
        simp [atKeyJ, isObjectJ, specEntriesOf, this]
    | _ => simp [atKeyJ, isObjectJ, specEntriesOf]

/-- `get_value_or` agrees with its characterization on object kinds. -/
lemma getValueOrJ_characterization : ∀ n : Nat, ∀ v, vsize v ≤ n →
    ∀ (α : Type) (asT : Value → α) (k : String) (d : α), isObjectJ v = true →
    getValueOrJ asT v k d =
      (match findEntry (specEntriesOf v) k with
        | some e => .ok (asT e.2)
        | none => .ok d) := by
  intro n
  induction n using Nat.strong_induction_on with
  | _ n ih =>
    intro v hv α asT k d hobj
    cases v with
    | objectValue l t => simp [getValueOrJ, specEntriesOf]
    | emptyObject t => simp [getValueOrJ, specEntriesOf, findEntry]
    | jsonConstPointer p =>
      rcases n with _ | m
      · simp [vsize] at hv
      · have := ih m (Nat.lt_succ_self m) p (by simp [vsize] at hv; omega) α asT k d
          (by simpa [isObjectJ] using hobj)
        simp [getValueOrJ, specEntriesOf, this]
    | _ => simp [isObjectJ] at hobj

/-- C7: `at(key)` raises key-not-found exactly on object-kind values (the
empty-object placeholder included) lacking the key, raises the
not-an-object type mismatch exactly on non-object kinds, and otherwise
returns the first mapped value; the call is a pure read (the embedding
returns only the result, the document argument is untouched), and
`get_value_or(key, default)` returns the converted mapped value when the
key is present and the default when absent, e.g. default 4 for key "four"
on an object without it. -/
theorem C7_at_and_get_value_or :
    (∀ v k, atKeyJ v k =
      (if isObjectJ v then
        (match findEntry (specEntriesOf v) k with
          | some e => .ok e.2
          | none => .error (.keyNotFound k))
      else .error (.notAnObject k))) ∧
    (∀ (α : Type) (asT : Value → α) (v : Value) (k : String) (d : α),
      isObjectJ v = true →
      getValueOrJ asT v k d =
        (match findEntry (specEntriesOf v) k with
          | some e => .ok (asT e.2)
          | none => .ok d)) ∧
    getValueOrJ (fun _ => (99 : Nat))
      (.objectValue [("one", .int64Value 1 0), ("two", .int64Value 2 0),
        ("three", .int64Value 3 0)] 0) "four" 4 = .ok 4 := by
  refine ⟨fun v k => atKeyJ_characterization (vsize v) v le_rfl k,
    fun α asT v k d h => getValueOrJ_characterization (vsize v) v le_rfl α asT k d h, ?_⟩
  simp [getValueOrJ, findEntry, List.find?]

/-- Lookup after `insert_or_assign`: the assigned key maps to the new
value, every other key is untouched. -/
lemma findEntry_insertOrAssign (l : List (String × Value)) (k0 k : String) (v : Value) :
    findEntry (insertOrAssignEntry l k0 v) k =
      (if k0 == k then some (k0, v) else findEntry l k) := by
  induction l with
  | nil =>
    by_cases h : (k0 == k) = true <;> simp [insertOrAssignEntry, findEntry, List.find?, h]
  | cons e r ih =>
    by_cases he : e.1 = k0
    · subst he
      by_cases h : (e.1 == k) = true
      · simp only [insertOrAssignEntry, if_pos rfl]
        simp [findEntry, List.find?, h]
      · simp only [insertOrAssignEntry, if_pos rfl]
        simp [findEntry, List.find?, h]
    · simp only [insertOrAssignEntry, if_neg he]
      by_cases h : (e.1 == k) = true
      · have hk0 : (k0 == k) = false := by
          rcases eq_or_ne k0 k with h2 | h2
          · exact absurd (by simpa using h) (by simpa [h2] using he)
          · simpa using h2
        simp [findEntry, List.find?, h, hk0]
      · simpa [findEntry, List.find?, h] using ih

/-- Lookup in an appended singleton. -/
lemma findEntry_append_single (l : List (String × Value)) (kv : String × Value) (k : String) :
    findEntry (l ++ [kv]) k =
      (match findEntry l k with
        | some e => some e
        | none => if kv.1 == k then some kv else none) := by
  induction l with
  | nil =>
    by_cases h : (kv.1 == k) = true <;> simp [findEntry, List.find?, h]
  | cons e r ih =>
    by_cases h : (e.1 == k) = true <;>
      simpa [findEntry, List.find?, h] using ih

/-- The container merge inserts exactly the source entries whose key is
absent from the target, in source order after the untouched target. -/
lemma objMergeC_eq : ∀ (src dst : List (String × Value)),
    (src.map Prod.fst).Nodup →
    objMergeC dst src = dst ++ src.filter (fun kv => (findEntry dst kv.1).isNone) := by
  intro src
  induction src with
  | nil => intro dst h; simp [objMergeC]
  | cons kv rest ih =>
    intro dst hnd
    have hcons : (kv.1 :: rest.map Prod.fst).Nodup := by simpa using hnd
    have hnd2 : (rest.map Prod.fst).Nodup := hcons.of_cons
    have hk : kv.1 ∉ rest.map Prod.fst := (List.nodup_cons.mp hcons).1
    by_cases hp : (findEntry dst kv.1).isSome
    · have h0 : objMergeC dst (kv :: rest) = objMergeC dst rest := by
        simp [objMergeC, List.foldl_cons, hp]
      have h1 : (findEntry dst kv.1).isNone = false := by
        simp [Option.isNone_iff_eq_none]
        rcases Option.isSome_iff_exists.mp hp with ⟨e, he⟩
        simp [he]
      rw [h0, ih dst hnd2]
      simp [List.filter_cons, h1]
    · have hnone : findEntry dst kv.1 = none := by
        rcases h : findEntry dst kv.1 with _ | e
        · rfl
        · simp [h] at hp
      have h0 : objMergeC dst (kv :: rest) = objMergeC (dst ++ [kv]) rest := by
        simp [objMergeC, List.foldl_cons, hnone]
      rw [h0, ih (dst ++ [kv]) hnd2]
      have hfil : rest.filter (fun e => (findEntry (dst ++ [kv]) e.1).isNone) =
          rest.filter (fun e => (findEntry dst e.1).isNone) := by
        apply List.filter_congr
        intro e he
        have hne : (kv.1 == e.1) = false := by
          have : e.1 ∈ rest.map Prod.fst := List.mem_map_of_mem Prod.fst he
          have : kv.1 ≠ e.1 := fun hEq => hk (hEq ▸ this)
          simpa using this
        rw [findEntry_append_single]
        rcases hfe : findEntry dst e.1 with _ | w <;> simp [hfe, hne]
      rw [hfil]
      simp [List.filter_cons, hnone, List.append_assoc]

/-- Lookup after the container merge-or-update: a key of the source maps to
the source's value, any other key to its value in the target. -/
lemma objMergeOrUpdateC_lookup : ∀ (src dst : List (String × Value)) (k : String),
    (src.map Prod.fst).Nodup →
    findEntry (objMergeOrUpdateC dst src) k =
      (match findEntry src k with
        | some e => some e
        | none => findEntry dst k) := by
  intro src
  induction src with
  | nil => intro dst k h; simp [objMergeOrUpdateC, findEntry, List.find?]
  | cons kv rest ih =>
    intro dst k hnd
    have hcons : (kv.1 :: rest.map Prod.fst).Nodup := by simpa using hnd
    have hnd2 : (rest.map Prod.fst).Nodup := hcons.of_cons
    have hk : kv.1 ∉ rest.map Prod.fst := (List.nodup_cons.mp hcons).1
    have h0 : objMergeOrUpdateC dst (kv :: rest) =
        objMergeOrUpdateC (insertOrAssignEntry dst kv.1 kv.2) rest := by
      simp [objMergeOrUpdateC, List.foldl_cons]
    rw [h0, ih _ k hnd2]
    by_cases hkk : (kv.1 == k) = true
    · have hkeq : kv.1 = k := by simpa using hkk
      have hrest : findEntry rest k = none := by
        rcases h : findEntry rest k with _ | e
        · rfl
        · exfalso
          have := List.find?_some h
          have hmem := List.mem_map_of_mem Prod.fst (List.mem_of_find?_eq_some h)
          exact hk (by simpa [hkeq, show e.1 = k by simpa using this] using hmem)
      simp only [findEntry] at hrest
      have h3 := findEntry_insertOrAssign dst kv.1 k kv.2
      simp only [findEntry] at h3
      simp [findEntry, List.find?, hkk, hrest, h3]
    · have h2 : findEntry (insertOrAssignEntry dst kv.1 kv.2) k = findEntry dst k := by
        simp [findEntry_insertOrAssign, hkk]
      simp only [findEntry] at h2
      simp [findEntry, List.find?, hkk, h2]

/-- C6: `merge` inserts into the target exactly those source entries whose
key is absent and leaves existing keys with their original values;
`merge_or_update` instead lets the source win on every key; on
A = {"a":1}, B = {"a":2,"b":3} merge yields {"a":1,"b":3} and
merge_or_update {"a":2,"b":3}, and merging into the empty-object
placeholder first promotes it to a real object. -/
theorem C6_merge_and_merge_or_update :
    (∀ (A B : List (String × Value)) (t1 t2 : Tag),
      (B.map Prod.fst).Nodup →
      mergeJ (.objectValue A t1) (.objectValue B t2) =
        .ok (.objectValue (A ++ B.filter (fun kv => (findEntry A kv.1).isNone)) t1)) ∧
    (∀ (A B : List (String × Value)) (t1 t2 : Tag) (k : String),
      (B.map Prod.fst).Nodup →
      ∃ res, mergeOrUpdateJ (.objectValue A t1) (.objectValue B t2) =
          .ok (.objectValue res t1) ∧
        findEntry res k =
          (match findEntry B k with
            | some e => some e
            | none => findEntry A k)) ∧
    mergeJ (.objectValue [("a", .int64Value 1 0)] 0)
        (.objectValue [("a", .int64Value 2 0), ("b", .int64Value 3 0)] 0) =
      .ok (.objectValue [("a", .int64Value 1 0), ("b", .int64Value 3 0)] 0) ∧
    mergeOrUpdateJ (.objectValue [("a", .int64Value 1 0)] 0)
        (.objectValue [("a", .int64Value 2 0), ("b", .int64Value 3 0)] 0) =
      .ok (.objectValue [("a", .int64Value 2 0), ("b", .int64Value 3 0)] 0) ∧
    mergeJ (.emptyObject 0)
        (.objectValue [("a", .int64Value 2 0), ("b", .int64Value 3 0)] 0) =
      .ok (.objectValue [("a", .int64Value 2 0), ("b", .int64Value 3 0)] 0) := by
  refine ⟨?_, ?_, ?_, ?_, ?_⟩
  · intro A B t1 t2 hnd
    simp [mergeJ, objectEntriesJ, Except.map, objMergeC_eq B A hnd]
  · intro A B t1 t2 k hnd
    refine ⟨objMergeOrUpdateC A B, ?_, objMergeOrUpdateC_lookup B A k hnd⟩
    simp [mergeOrUpdateJ, objectEntriesJ, Except.map]
  · simp [mergeJ, objectEntriesJ, Except.map, objMergeC, findEntry, List.find?,
      insertOrAssignEntry]
  · simp [mergeOrUpdateJ, objectEntriesJ, Except.map, objMergeOrUpdateC, findEntry,
      List.find?, insertOrAssignEntry]
  · simp [mergeJ, objectEntriesJ, Except.map, objMergeC, findEntry, List.find?,
      insertOrAssignEntry]

/-- C8 counterexample: the claim says an empty-object placeholder is
materialized into a real object only at the point of assignment, never at
the point of subscripting; but `operator[]` on an empty-object value runs
`create_object_implicitly()` before returning the proxy, so evaluating
`v["a"]` alone already turns `v` into a real (heap) object of size 0. -/
theorem C8_subscript_materializes_counterexample :
    subscriptKeyJ (.emptyObject 0) "a" = .ok (.objectValue [] 0, "a") ∧
    Value.objectValue [] 0 ≠ Value.emptyObject 0 := by
  constructor
  · simp [subscriptKeyJ]
  · exact fun h => Value.noConfusion h

/-- C8 (amended): subscripting never inserts an entry for the absent key —
on an object value the document is returned unchanged and only a proxy
(key) is formed, and chaining proxies is pure — but subscripting a root
whose active variant is the empty-object placeholder immediately rebuilds
it as a real zero-size object (no entries); missing intermediate keys and
the final key are inserted only by assignment through the proxy chain
(`evaluate_with_default` + `insert_or_assign`), illustrated on
`v["a"]["b"] = 7` from an empty placeholder. -/
theorem C8_subscript_no_insert :
    (∀ (l : List (String × Value)) (t : Tag) (k : String),
      subscriptKeyJ (.objectValue l t) k = .ok (.objectValue l t, k)) ∧
    (∀ (t : Tag) (k : String),
      subscriptKeyJ (.emptyObject t) k = .ok (.objectValue [] t, k)) ∧
    (∀ (v : Value) (k : String), isObjectJ v = false → isJptr v = false →
      subscriptKeyJ v k = .error (.notAnObject k)) ∧
    assignThroughProxy (.emptyObject 0) ["a"] "b" (.int64Value 7 0) =
      .ok (.objectValue [("a", .objectValue [("b", .int64Value 7 0)] 0)] 0) := by
  refine ⟨?_, ?_, ?_, ?_⟩
  · intro l t k
    simp [subscriptKeyJ]
  · intro t k
    simp [subscriptKeyJ]
  · intro v k h1 h2
    cases v <;> simp_all [subscriptKeyJ, isObjectJ, isJptr]
  · simp [assignThroughProxy, insertOrAssignJ, insertOrAssignEntry, tagNone, Except.map]

/-- Ordering dereferences a left-hand external reference; when the right
operand is also an external reference, both are dereferenced together. -/
lemma ltJson_jptrL (p y : Value) (hy : isJptr y = false) :
    ltJson (.jsonConstPointer p) y = ltJson p y := by
  cases y <;> simp [ltJson, isJptr] at hy ⊢

/-- Both sides dereferenced when both are external references. -/
lemma ltJson_jptr_both (p q : Value) :
    ltJson (.jsonConstPointer p) (.jsonConstPointer q) = ltJson p q := by
  simp [ltJson]

/-- The copy constructor produces a tree without external references. -/
lemma copyJ_jptrFree : ∀ n : Nat,
    (∀ v, vsize v ≤ n → jptrFree (copyJ v) = true) ∧
    (∀ l, lsize l ≤ n → jptrFreeList (copyListJ l) = true) ∧
    (∀ l, osize l ≤ n → jptrFreeEntries (copyEntriesJ l) = true) := by
  intro n
  induction n using Nat.strong_induction_on with
  | _ n ih =>
    refine ⟨?_, ?_, ?_⟩
    · intro v hv
      cases v with
      | jsonConstPointer p =>
        rcases n with _ | m
        · simp [vsize] at hv
        · have := (ih m (Nat.lt_succ_self m)).1 p (by simp [vsize] at hv; omega)
          simpa [copyJ] using this
      | arrayValue l t =>
        rcases n with _ | m
        · simp [vsize] at hv
        · have := (ih m (Nat.lt_succ_self m)).2.1 l (by simp [vsize] at hv; omega)
          simpa [copyJ, jptrFree] using this
      | objectValue l t =>
        rcases n with _ | m
        · simp [vsize] at hv
        · have := (ih m (Nat.lt_succ_self m)).2.2 l (by simp [vsize] at hv; omega)
          simpa [copyJ, jptrFree] using this
      | _ => simp [copyJ, jptrFree]
    · intro l hl
      cases l with
      | nil => simp [copyListJ, jptrFreeList]
      | cons v r =>
        rcases n with _ | m
        · simp [lsize] at hl
        · have h1 := (ih m (Nat.lt_succ_self m)).1 v (by simp [lsize] at hl; omega)
          have h2 := (ih m (Nat.lt_succ_self m)).2.1 r (by simp [lsize] at hl; omega)
          simp [copyListJ, jptrFreeList, h1, h2]
    · intro l hl
      cases l with
      | nil => simp [copyEntriesJ, jptrFreeEntries]
      | cons e r =>
        rcases e with ⟨k, v⟩
        rcases n with _ | m
        · simp [osize] at hl
        · have h1 := (ih m (Nat.lt_succ_self m)).1 v (by simp [osize] at hl; omega)
          have h2 := (ih m (Nat.lt_succ_self m)).2.2 r (by simp [osize] at hl; omega)
          simp [copyEntriesJ, jptrFreeEntries, h1, h2]

/-- The copy constructor produces a tree that compares equal to its
source. -/
lemma copyJ_eq : ∀ n : Nat,
    (∀ v, vsize v ≤ n → eqJson (copyJ v) v = true) ∧
    (∀ l, lsize l ≤ n → eqListJ (copyListJ l) l = true) ∧
    (∀ l, osize l ≤ n → eqEntriesJ (copyEntriesJ l) l = true) := by
  intro n
  induction n using Nat.strong_induction_on with
  | _ n ih =>
    refine ⟨?_, ?_, ?_⟩
    · intro v hv
      cases v with
      | jsonConstPointer p =>
        rcases n with _ | m
        · simp [vsize] at hv
        · have := (ih m (Nat.lt_succ_self m)).1 p (by simp [vsize] at hv; omega)
          rw [copyJ, eqJson_jptrR]
          exact this
      | arrayValue l t =>
        rcases n with _ | m
        · simp [vsize] at hv
        · have := (ih m (Nat.lt_succ_self m)).2.1 l (by simp [vsize] at hv; omega)
          simp [copyJ, eqJson, this]
      | objectValue l t =>
        rcases n with _ | m
        · simp [vsize] at hv
        · have := (ih m (Nat.lt_succ_self m)).2.2 l (by simp [vsize] at hv; omega)
          simp [copyJ, eqJson, this]
      | _ => simp [copyJ, eqJson]
    · intro l hl
      cases l with
      | nil => simp [copyListJ, eqListJ]
      | cons v r =>
        rcases n with _ | m
        · simp [lsize] at hl
        · have h1 := (ih m (Nat.lt_succ_self m)).1 v (by simp [lsize] at hl; omega)
          have h2 := (ih m (Nat.lt_succ_self m)).2.1 r (by simp [lsize] at hl; omega)
          simp [copyListJ, eqListJ, h1, h2]
    · intro l hl
      cases l with
      | nil => simp [copyEntriesJ, eqEntriesJ]
      | cons e r =>
        rcases e with ⟨k, v⟩
        rcases n with _ | m
        · simp [osize] at hl
        · have h1 := (ih m (Nat.lt_succ_self m)).1 v (by simp [osize] at hl; omega)
          have h2 := (ih m (Nat.lt_succ_self m)).2.2 r (by simp [osize] at hl; omega)
          simp [copyEntriesJ, eqEntriesJ, h1, h2]

/-- C5 counterexample: comparison is listed among the read operations that
give the same result on the view as on its referent, but the `null_value`
case of `operator<` orders by the storage discriminator against every
right-hand kind — external references included, without dereferencing — so
`null < view-of-null` is true while `null < null` is false. -/
theorem C5_lt_null_view_counterexample :
    ltJson (.nullValue 0) (.jsonConstPointer (.nullValue 0)) = some true ∧
    ltJson (.nullValue 0) (.nullValue 0) = some false := by
  constructor <;> simp [ltJson, storageOrd]

/-- C5 (amended): on a view over a live referent the read operations
is_array, is_object, size, at (key and index), count, contains forward to
the referent; equality forwards on either side; ordering forwards when the
view is the left operand (both sides dereferenced when both are views) —
but a null left operand compares the view's own discriminator without
dereferencing (see the counterexample); copy construction materializes: the
copy of any value is free of external references and compares equal to the
source. -/
theorem C5_view_forwarding :
    (∀ p, isArrayJ (.jsonConstPointer p) = isArrayJ p) ∧
    (∀ p, isObjectJ (.jsonConstPointer p) = isObjectJ p) ∧
    (∀ p, sizeJ (.jsonConstPointer p) = sizeJ p) ∧
    (∀ p k, atKeyJ (.jsonConstPointer p) k = atKeyJ p k) ∧
    (∀ p i, atIndexJ (.jsonConstPointer p) i = atIndexJ p i) ∧
    (∀ p k, countJ (.jsonConstPointer p) k = countJ p k) ∧
    (∀ p k, containsJ (.jsonConstPointer p) k = containsJ p k) ∧
    (∀ p y, eqJson (.jsonConstPointer p) y = eqJson p y) ∧
    (∀ p y, eqJson y (.jsonConstPointer p) = eqJson y p) ∧
    (∀ p y, isJptr y = false → ltJson (.jsonConstPointer p) y = ltJson p y) ∧
    (∀ p q, ltJson (.jsonConstPointer p) (.jsonConstPointer q) = ltJson p q) ∧
    (∀ p, copyJ (.jsonConstPointer p) = copyJ p) ∧
    (∀ v, jptrFree (copyJ v) = true) ∧
    (∀ v, eqJson (copyJ v) v = true) := by
  refine ⟨fun p => by simp [isArrayJ], fun p => by simp [isObjectJ],
    fun p => by simp [sizeJ], fun p k => by simp [atKeyJ],
    fun p i => by simp [atIndexJ], fun p k => by simp [countJ],
    fun p k => by simp [containsJ],
    fun p y => eqJson_jptrL p y, fun p y => eqJson_jptrR y p,
    fun p y h => ltJson_jptrL p y h, fun p q => ltJson_jptr_both p q,
    fun p => by simp [copyJ],
    fun v => (copyJ_jptrFree (vsize v)).1 v le_rfl,
    fun v => (copyJ_eq (vsize v)).1 v le_rfl⟩

/-- `operator<` on a value compared with itself (payload-identical copies
at distinct addresses) returns false for every half-free value. -/
lemma ltSelf_all : ∀ n : Nat,
    (∀ v, vsize v ≤ n → halfFree v = true → ltJson v v = some false) ∧
    (∀ l, lsize l ≤ n → halfFreeList l = true → ltListJ l l = some false) ∧
    (∀ l, osize l ≤ n → halfFreeEntries l = true → ltEntriesJ l l = some false) := by
  intro n
  induction n using Nat.strong_induction_on with
  | _ n ih =>
    refine ⟨?_, ?_, ?_⟩
    · intro v hv hf
      cases v with
      | jsonConstPointer p =>
        rcases n with _ | m
        · simp [vsize] at hv
        · have := (ih m (Nat.lt_succ_self m)).1 p (by simp [vsize] at hv; omega)
            (by simpa [halfFree] using hf)
          simpa [ltJson] using this
      | arrayValue l t =>
        rcases n with _ | m
        · simp [vsize] at hv
        · have := (ih m (Nat.lt_succ_self m)).2.1 l (by simp [vsize] at hv; omega)
            (by simpa [halfFree] using hf)
          simpa [ltJson] using this
      | objectValue l t =>
        rcases n with _ | m
        · simp [vsize] at hv
        · have := (ih m (Nat.lt_succ_self m)).2.2 l (by simp [vsize] at hv; omega)
            (by simpa [halfFree] using hf)
          simpa [ltJson] using this
      | halfValue h t => simp [halfFree] at hf
      | _ => simp [ltJson, storageOrd]
    · intro l hl hf
      cases l with
      | nil => simp [ltListJ]
      | cons v r =>
        rcases n with _ | m
        · simp [lsize] at hl
        · have h1 := (ih m (Nat.lt_succ_self m)).1 v (by simp [lsize] at hl; omega)
            (by simp [halfFreeList] at hf; exact hf.1)
          have h2 := (ih m (Nat.lt_succ_self m)).2.1 r (by simp [lsize] at hl; omega)
            (by simp [halfFreeList] at hf; exact hf.2)
          simp [ltListJ, h1, h2]
    · intro l hl hf
      cases l with
      | nil => simp [ltEntriesJ]
      | cons e r =>
        rcases e with ⟨k, v⟩
        rcases n with _ | m
        · simp [osize] at hl
        · have h1 := (ih m (Nat.lt_succ_self m)).1 v (by simp [osize] at hl; omega)
            (by simp [halfFreeEntries] at hf; exact hf.1)
          have h2 := (ih m (Nat.lt_succ_self m)).2.2 r (by simp [osize] at hl; omega)
            (by simp [halfFreeEntries] at hf; exact hf.2)
          simp [ltEntriesJ, h1, h2]

/-- C10 counterexample: two half values with identical bit pattern and
different semantic tags compare equal, but `operator<` does not return
false on them — it falls into its unreachable default branch (embedded as
`none`), because the switch has no `half_value` case. -/
theorem C10_half_tag_counterexample :
    eqJson (.halfValue 15360 0) (.halfValue 15360 1) = true ∧
    ltJson (.halfValue 15360 0) (.halfValue 15360 1) ≠ some false := by
  constructor
  · simp [eqJson]
  · simp [ltJson]

/-- C10 (amended): neither comparator inspects the semantic tag — two
values with identical kind and payload and arbitrary tags compare equal,
and `operator<` returns false in both directions whenever the payload is
half-free; when the active variant (or a compared sub-value) is half,
`operator<` reaches its unreachable default branch instead of returning
(the external-reference variant stores no independent tag, so `retag`
leaves it unchanged). -/
theorem C10_tags_ignored :
    (∀ (x : Value) (t1 t2 : Tag), eqJson (retag x t1) (retag x t2) = true) ∧
    (∀ (x : Value) (t1 t2 : Tag), halfFree x = true →
      ltJson (retag x t1) (retag x t2) = some false ∧
      ltJson (retag x t2) (retag x t1) = some false) := by
  constructor
  · intro x t1 t2
    cases x with
    | arrayValue l t =>
      have := (eqJson_refl_all (lsize l + lsize l)).2.1 l (by omega)
      simp [retag, eqJson, this]
    | objectValue l t =>
      have := (eqJson_refl_all (osize l + osize l)).2.2 l (by omega)
      simp [retag, eqJson, this]
    | jsonConstPointer p =>
      have := (eqJson_refl_all (vsize p)).1 p le_rfl
      simp [retag, eqJson, this]
    | _ => simp [retag, eqJson]
  · intro x t1 t2 hf
    cases x with
    | halfValue h t => simp [halfFree] at hf
    | jsonConstPointer p =>
      have := (ltSelf_all (vsize p)).1 p le_rfl (by simpa [halfFree] using hf)
      constructor <;> simpa [retag, ltJson] using this
    | arrayValue l t =>
      have := (ltSelf_all (lsize l)).2.1 l le_rfl (by simpa [halfFree] using hf)
      constructor <;> simp [retag, ltJson, this]
    | objectValue l t =>
      have := (ltSelf_all (osize l)).2.2 l le_rfl (by simpa [halfFree] using hf)
      constructor <;> simp [retag, ltJson, this]
    | _ => constructor <;> simp [retag, ltJson, storageOrd]

/-- Integers of magnitude at most `2^53` cast to double exactly. -/
lemma roundIntToF64_exact (i : Int) (h : i.natAbs ≤ 2 ^ 53) :
    roundIntToF64 i = (i : ℚ) := by
  simp [roundIntToF64, h]
  intro h2
  exact absurd h2 (by omega)

/-- The magnitude of a finite half pattern determines exponent and
mantissa. -/
lemma halfMag_inj (e1 m1 e2 m2 : ℕ)
    (he1 : e1 < 31) (hm1 : m1 < 1024) (he2 : e2 < 31) (hm2 : m2 < 1024)
    (h : (((if e1 = 0 then 2 * m1 else (1024 + m1) * 2 ^ e1 : ℕ) : ℚ) / 2 ^ 25) =
      (((if e2 = 0 then 2 * m2 else (1024 + m2) * 2 ^ e2 : ℕ) : ℚ) / 2 ^ 25)) :
    e1 = e2 ∧ m1 = m2 := by
  have keyN : (if e1 = 0 then 2 * m1 else (1024 + m1) * 2 ^ e1) =
      (if e2 = 0 then 2 * m2 else (1024 + m2) * 2 ^ e2) := by
    field_simp at h
    have h2 : (if e1 = 0 then 2 * m1 * 2 ^ 25 else (1024 + m1) * 2 ^ e1 * 2 ^ 25) =
        (if e2 = 0 then 2 * m2 * 2 ^ 25 else (1024 + m2) * 2 ^ e2 * 2 ^ 25) := by
      exact_mod_cast h
    have h3 : (if e1 = 0 then 2 * m1 else (1024 + m1) * 2 ^ e1) * 2 ^ 25 =
        (if e2 = 0 then 2 * m2 else (1024 + m2) * 2 ^ e2) * 2 ^ 25 := by
      simpa [ite_mul] using h2
    exact Nat.eq_of_mul_eq_mul_right (Nat.pos_pow_of_pos 25 (by omega)) h3
  by_cases h1 : e1 = 0 <;> by_cases h2 : e2 = 0
  · subst h1
    simp [h2] at keyN ⊢
    omega
  · rw [if_pos h1, if_neg h2] at keyN
    exfalso
    have hp : (2 : ℕ) ≤ 2 ^ e2 := by
      calc (2 : ℕ) = 2 ^ 1 := rfl
      _ ≤ 2 ^ e2 := Nat.pow_le_pow_right (by omega) (by omega)
    have : 2048 ≤ (1024 + m2) * 2 ^ e2 :=
      le_trans (by omega : 2048 ≤ (1024 + m2) * 2) (Nat.mul_le_mul_left _ hp)
    omega
  · rw [if_neg h1, if_pos h2] at keyN
    exfalso
    have hp : (2 : ℕ) ≤ 2 ^ e1 := by
      calc (2 : ℕ) = 2 ^ 1 := rfl
      _ ≤ 2 ^ e1 := Nat.pow_le_pow_right (by omega) (by omega)
    have : 2048 ≤ (1024 + m1) * 2 ^ e1 :=
      le_trans (by omega : 2048 ≤ (1024 + m1) * 2) (Nat.mul_le_mul_left _ hp)
    omega
  · rw [if_neg h1, if_neg h2] at keyN
    have hee : e1 = e2 := by
      rcases Nat.lt_trichotomy e1 e2 with hlt | heq | hgt
      · exfalso
        have hsplit : 2 ^ e2 = 2 ^ (e2 - e1) * 2 ^ e1 := by
          rw [← pow_add]
          congr 1
          omega
        rw [hsplit, ← Nat.mul_assoc] at keyN
        have hcancel : 1024 + m1 = (1024 + m2) * 2 ^ (e2 - e1) :=
          Nat.eq_of_mul_eq_mul_right (Nat.pos_pow_of_pos e1 (by omega)) keyN
        have hp : (2 : ℕ) ≤ 2 ^ (e2 - e1) := by
          calc (2 : ℕ) = 2 ^ 1 := rfl
          _ ≤ 2 ^ (e2 - e1) := Nat.pow_le_pow_right (by omega) (by omega)
        have : 2048 ≤ (1024 + m2) * 2 ^ (e2 - e1) :=
          le_trans (by omega : 2048 ≤ (1024 + m2) * 2) (Nat.mul_le_mul_left _ hp)
        omega
      · exact heq
      · exfalso
        have hsplit : 2 ^ e1 = 2 ^ (e1 - e2) * 2 ^ e2 := by
          rw [← pow_add]
          congr 1
          omega
        rw [hsplit, ← Nat.mul_assoc] at keyN
        have hcancel : (1024 + m1) * 2 ^ (e1 - e2) = 1024 + m2 :=
          Nat.eq_of_mul_eq_mul_right (Nat.pos_pow_of_pos e2 (by omega)) keyN
        have hp : (2 : ℕ) ≤ 2 ^ (e1 - e2) := by
          calc (2 : ℕ) = 2 ^ 1 := rfl
          _ ≤ 2 ^ (e1 - e2) := Nat.pow_le_pow_right (by omega) (by omega)
        have : 2048 ≤ (1024 + m1) * 2 ^ (e1 - e2) :=
          le_trans (by omega : 2048 ≤ (1024 + m1) * 2) (Nat.mul_le_mul_left _ hp)
        omega
    subst hee
    refine ⟨rfl, ?_⟩
    have := Nat.eq_of_mul_eq_mul_right (Nat.pos_pow_of_pos e1 (by omega)) keyN
    omega

/-- `decode_half` is injective on finite patterns other than negative
zero (the two encodings of zero decode to the same rational, so the
pattern 0x8000 must be excluded). -/
lemma decodeHalf_inj (a b : ℕ)
    (ha : a < 65536) (hea : a / 1024 % 32 ≠ 31) (ha0 : a ≠ 32768)
    (hb : b < 65536) (heb : b / 1024 % 32 ≠ 31) (hb0 : b ≠ 32768)
    (h : decodeHalf a = decodeHalf b) : a = b := by
  simp only [decodeHalf] at h
  have hma : a % 1024 < 1024 := Nat.mod_lt _ (by omega)
  have hmb : b % 1024 < 1024 := Nat.mod_lt _ (by omega)
  have hea2 : a / 1024 % 32 < 31 := by
    have : a / 1024 % 32 < 32 := Nat.mod_lt _ (by omega)
    omega
  have heb2 : b / 1024 % 32 < 31 := by
    have : b / 1024 % 32 < 32 := Nat.mod_lt _ (by omega)
    omega
  have hmagA : (0 : ℚ) ≤
      ((if a / 1024 % 32 = 0 then 2 * (a % 1024)
        else (1024 + a % 1024) * 2 ^ (a / 1024 % 32) : ℕ) : ℚ) / 2 ^ 25 := by
    positivity
  have hmagB : (0 : ℚ) ≤
      ((if b / 1024 % 32 = 0 then 2 * (b % 1024)
        else (1024 + b % 1024) * 2 ^ (b / 1024 % 32) : ℕ) : ℚ) / 2 ^ 25 := by
    positivity
  have hNA0 : ∀ c : ℕ, c < 65536 →
      (((if c / 1024 % 32 = 0 then 2 * (c % 1024)
        else (1024 + c % 1024) * 2 ^ (c / 1024 % 32) : ℕ) : ℚ) / 2 ^ 25 = 0) →
      c / 1024 % 32 = 0 ∧ c % 1024 = 0 := by
    intro c hc hz
    have hz2 : (if c / 1024 % 32 = 0 then 2 * (c % 1024)
        else (1024 + c % 1024) * 2 ^ (c / 1024 % 32)) = 0 := by
      field_simp at hz
      exact_mod_cast hz
    by_cases hce : c / 1024 % 32 = 0
    · rw [if_pos hce] at hz2
      omega
    · rw [if_neg hce] at hz2
      exfalso
      have : 0 < (1024 + c % 1024) * 2 ^ (c / 1024 % 32) :=
        Nat.mul_pos (by omega) (Nat.pos_pow_of_pos _ (by omega))
      omega
  have hdda : a / 1024 / 32 = a / 32768 := by rw [Nat.div_div_eq_div_mul]
  have hddb : b / 1024 / 32 = b / 32768 := by rw [Nat.div_div_eq_div_mul]
  have hsa : a / 32768 % 2 = 0 ∨ a / 32768 % 2 = 1 := by omega
  have hsb : b / 32768 % 2 = 0 ∨ b / 32768 % 2 = 1 := by omega
  have hmag_of_eq : ∀ hAB :
      (((if a / 1024 % 32 = 0 then 2 * (a % 1024)
        else (1024 + a % 1024) * 2 ^ (a / 1024 % 32) : ℕ) : ℚ) / 2 ^ 25) =
      (((if b / 1024 % 32 = 0 then 2 * (b % 1024)
        else (1024 + b % 1024) * 2 ^ (b / 1024 % 32) : ℕ) : ℚ) / 2 ^ 25),
      a / 1024 % 32 = b / 1024 % 32 ∧ a % 1024 = b % 1024 := by
    intro hAB
    exact halfMag_inj _ _ _ _ hea2 hma heb2 hmb hAB
  rcases hsa with hsa | hsa <;> rcases hsb with hsb | hsb
  · rw [if_neg (show ¬ a / 32768 % 2 = 1 by omega),
      if_neg (show ¬ b / 32768 % 2 = 1 by omega)] at h
    rcases hmag_of_eq h with ⟨h1, h2⟩
    omega
  · rw [if_neg (show ¬ a / 32768 % 2 = 1 by omega), if_pos hsb] at h
    exfalso
    have hz : (((if a / 1024 % 32 = 0 then 2 * (a % 1024)
        else (1024 + a % 1024) * 2 ^ (a / 1024 % 32) : ℕ) : ℚ) / 2 ^ 25) = 0 ∧
        (((if b / 1024 % 32 = 0 then 2 * (b % 1024)
        else (1024 + b % 1024) * 2 ^ (b / 1024 % 32) : ℕ) : ℚ) / 2 ^ 25) = 0 := by
      constructor <;> linarith
    rcases hNA0 a ha hz.1 with ⟨he0, hm0⟩
    rcases hNA0 b hb hz.2 with ⟨he1, hm1⟩
    omega
  · rw [if_pos hsa, if_neg (show ¬ b / 32768 % 2 = 1 by omega)] at h
    exfalso
    have hz : (((if a / 1024 % 32 = 0 then 2 * (a % 1024)
        else (1024 + a % 1024) * 2 ^ (a / 1024 % 32) : ℕ) : ℚ) / 2 ^ 25) = 0 ∧
        (((if b / 1024 % 32 = 0 then 2 * (b % 1024)
        else (1024 + b % 1024) * 2 ^ (b / 1024 % 32) : ℕ) : ℚ) / 2 ^ 25) = 0 := by
      constructor <;> linarith
    rcases hNA0 a ha hz.1 with ⟨he0, hm0⟩
    rcases hNA0 b hb hz.2 with ⟨he1, hm1⟩
    omega
  · rw [if_pos hsa, if_pos hsb] at h
    have h2 := neg_injective h
    rcases hmag_of_eq h2 with ⟨h1, h3⟩
    omega

/-- Rational casts of an integer and a natural agree exactly when the
integers do. -/
lemma intQ_eq_natQ (i : ℤ) (u : ℕ) : ((i : ℚ) = (u : ℚ)) ↔ i = (u : ℤ) := by
  constructor <;> intro h <;> exact_mod_cast h

/-- The guarded unsigned comparison of the int64/uint64 rule coincides
with equality of the exact rational values. -/
lemma int64_uint64_eq_iff (i : ℤ) (u : ℕ) :
    (if 0 ≤ i then i.toNat == u else false) = true ↔ (i : ℚ) = (u : ℚ) := by
  rw [intQ_eq_natQ]
  by_cases h0 : (0 : ℤ) ≤ i <;> simp [h0] <;> omega

/-- Mirror image of `int64_uint64_eq_iff`. -/
lemma uint64_int64_eq_iff (u : ℕ) (j : ℤ) :
    (if 0 ≤ j then u == j.toNat else false) = true ↔ (u : ℚ) = (j : ℚ) := by
  rw [show ((u : ℚ) = (j : ℚ)) ↔ ((j : ℚ) = (u : ℚ)) from eq_comm, intQ_eq_natQ]
  by_cases h0 : (0 : ℤ) ≤ j <;> simp [h0] <;> omega

/-- On `numExact` values, `operator==` compares equal exactly when the
canonical comparison keys coincide: every rule of the promotion table is
the equality of exact denotations once integer-to-double promotion is
lossless and half patterns decode injectively. -/
lemma eq_iff_kdenote : ∀ n : Nat,
    (∀ x y, vsize x + vsize y ≤ n → numExact x = true → numExact y = true →
      (eqJson x y = true ↔ kdenote x = kdenote y)) ∧
    (∀ l l2, lsize l + lsize l2 ≤ n → numExactList l = true → numExactList l2 = true →
      (eqListJ l l2 = true ↔ kdenoteList l = kdenoteList l2)) ∧
    (∀ l l2, osize l + osize l2 ≤ n → numExactEntries l = true → numExactEntries l2 = true →
      (eqEntriesJ l l2 = true ↔ kdenoteEntries l = kdenoteEntries l2)) := by
  intro n
  induction n using Nat.strong_induction_on with
  | _ n ih =>
    have ihV : ∀ x y, vsize x + vsize y < n → numExact x = true → numExact y = true →
        (eqJson x y = true ↔ kdenote x = kdenote y) := by
      intro x y h hx hy
      rcases n with _ | m
      · omega
      · exact (ih m (Nat.lt_succ_self m)).1 x y (by omega) hx hy
    have ihL : ∀ l l2, lsize l + lsize l2 < n → numExactList l = true →
        numExactList l2 = true → (eqListJ l l2 = true ↔ kdenoteList l = kdenoteList l2) := by
      intro l l2 h hx hy
      rcases n with _ | m
      · omega
      · exact (ih m (Nat.lt_succ_self m)).2.1 l l2 (by omega) hx hy
    have ihE : ∀ l l2, osize l + osize l2 < n → numExactEntries l = true →
        numExactEntries l2 = true →
        (eqEntriesJ l l2 = true ↔ kdenoteEntries l = kdenoteEntries l2) := by
      intro l l2 h hx hy
      rcases n with _ | m
      · omega
      · exact (ih m (Nat.lt_succ_self m)).2.2 l l2 (by omega) hx hy
    refine ⟨?_, ?_, ?_⟩
    · intro x y hxy hnx hny
      cases x with
      | jsonConstPointer p =>
        rw [eqJson_jptrL, show kdenote (Value.jsonConstPointer p) = kdenote p from by
          simp [kdenote]]
        exact ihV p y (by simp [vsize] at hxy; omega) (by simpa [numExact] using hnx) hny
      | nullValue t =>
        cases y with
        | jsonConstPointer q =>
          rw [eqJson_jptrR, show kdenote (Value.jsonConstPointer q) = kdenote q from by
            simp [kdenote]]
          exact ihV _ q (by simp [vsize] at hxy ⊢; omega) hnx
            (by simpa [numExact] using hny)
        | _ => simp [eqJson, kdenote]
      | emptyObject t =>
        cases y with
        | jsonConstPointer q =>
          rw [eqJson_jptrR, show kdenote (Value.jsonConstPointer q) = kdenote q from by
            simp [kdenote]]
          exact ihV _ q (by simp [vsize] at hxy ⊢; omega) hnx
            (by simpa [numExact] using hny)
        | objectValue l2 t2 =>
          cases l2 with
          | nil => simp [eqJson, kdenote, kdenoteEntries]
          | cons e r =>
            rcases e with ⟨k, v⟩
            simp [eqJson, kdenote, kdenoteEntries]
        | _ => simp [eqJson, kdenote]
      | boolValue b t =>
        cases y with
        | jsonConstPointer q =>
          rw [eqJson_jptrR, show kdenote (Value.jsonConstPointer q) = kdenote q from by
            simp [kdenote]]
          exact ihV _ q (by simp [vsize] at hxy ⊢; omega) hnx
            (by simpa [numExact] using hny)
        | _ => simp [eqJson, kdenote]
      | int64Value i t =>
        have hi : i.natAbs ≤ 2 ^ 53 := by simpa [numExact] using hnx
        cases y with
        | jsonConstPointer q =>
          rw [eqJson_jptrR, show kdenote (Value.jsonConstPointer q) = kdenote q from by
            simp [kdenote]]
          exact ihV _ q (by simp [vsize] at hxy ⊢; omega) hnx
            (by simpa [numExact] using hny)
        | int64Value j t2 => simp [eqJson, kdenote]
        | uint64Value u t2 =>
          simp only [eqJson, kdenote, K.numK.injEq]
          exact int64_uint64_eq_iff i u
        | halfValue h t2 =>
          simp only [eqJson, kdenote, K.numK.injEq]
          rw [roundIntToF64_exact i hi]
          simp
        | doubleValue d t2 =>
          simp only [eqJson, kdenote, K.numK.injEq]
          rw [roundIntToF64_exact i hi]
          simp
        | _ => simp [eqJson, kdenote]
      | uint64Value u t =>
        have hu : ((u : ℤ)).natAbs ≤ 2 ^ 53 := by simpa [numExact] using hnx
        cases y with
        | jsonConstPointer q =>
          rw [eqJson_jptrR, show kdenote (Value.jsonConstPointer q) = kdenote q from by
            simp [kdenote]]
          exact ihV _ q (by simp [vsize] at hxy ⊢; omega) hnx
            (by simpa [numExact] using hny)
        | int64Value j t2 =>
          simp only [eqJson, kdenote, K.numK.injEq]
          exact uint64_int64_eq_iff u j
        | uint64Value w t2 => simp [eqJson, kdenote]
        | halfValue h t2 =>
          simp only [eqJson, kdenote, K.numK.injEq]
          rw [roundIntToF64_exact (u : ℤ) hu]
          simp
        | doubleValue d t2 =>
          simp only [eqJson, kdenote, K.numK.injEq]
          rw [roundIntToF64_exact (u : ℤ) hu]
          simp
        | _ => simp [eqJson, kdenote]
      | halfValue h t =>
        have hh : h < 65536 ∧ h / 1024 % 32 ≠ 31 ∧ h ≠ 32768 := by
          simpa [numExact] using hnx
        cases y with
        | jsonConstPointer q =>
          rw [eqJson_jptrR, show kdenote (Value.jsonConstPointer q) = kdenote q from by
            simp [kdenote]]
          exact ihV _ q (by simp [vsize] at hxy ⊢; omega) hnx
            (by simpa [numExact] using hny)
        | halfValue h2 t2 =>
          have hh2 : h2 < 65536 ∧ h2 / 1024 % 32 ≠ 31 ∧ h2 ≠ 32768 := by
            simpa [numExact] using hny
          simp only [eqJson, kdenote, K.numK.injEq, beq_iff_eq]
          constructor
          · intro he
            rw [he]
          · intro he
            exact decodeHalf_inj h h2 hh.1 hh.2.1 hh.2.2 hh2.1 hh2.2.1 hh2.2.2 he
        | int64Value j t2 =>
          have hj : j.natAbs ≤ 2 ^ 53 := by simpa [numExact] using hny
          simp only [eqJson, kdenote, K.numK.injEq]
          rw [roundIntToF64_exact j hj]
          simp
        | uint64Value w t2 =>
          have hw : ((w : ℤ)).natAbs ≤ 2 ^ 53 := by simpa [numExact] using hny
          simp only [eqJson, kdenote, K.numK.injEq]
          rw [roundIntToF64_exact (w : ℤ) hw]
          simp
        | doubleValue d t2 => simp [eqJson, kdenote]
        | _ => simp [eqJson, kdenote]
      | doubleValue d t =>
        cases y with
        | jsonConstPointer q =>
          rw [eqJson_jptrR, show kdenote (Value.jsonConstPointer q) = kdenote q from by
            simp [kdenote]]
          exact ihV _ q (by simp [vsize] at hxy ⊢; omega) hnx
            (by simpa [numExact] using hny)
        | int64Value j t2 =>
          have hj : j.natAbs ≤ 2 ^ 53 := by simpa [numExact] using hny
          simp only [eqJson, kdenote, K.numK.injEq]
          rw [roundIntToF64_exact j hj]
          simp
        | uint64Value w t2 =>
          have hw : ((w : ℤ)).natAbs ≤ 2 ^ 53 := by simpa [numExact] using hny
          simp only [eqJson, kdenote, K.numK.injEq]
          rw [roundIntToF64_exact (w : ℤ) hw]
          simp
        | halfValue h2 t2 => simp [eqJson, kdenote]
        | doubleValue d2 t2 => simp [eqJson, kdenote]
        | _ => simp [eqJson, kdenote]
      | shortString a t =>
        cases y with
        | jsonConstPointer q =>
          rw [eqJson_jptrR, show kdenote (Value.jsonConstPointer q) = kdenote q from by
            simp [kdenote]]
          exact ihV _ q (by simp [vsize] at hxy ⊢; omega) hnx
            (by simpa [numExact] using hny)
        | _ => simp [eqJson, kdenote]
      | longString a t =>
        cases y with
        | jsonConstPointer q =>
          rw [eqJson_jptrR, show kdenote (Value.jsonConstPointer q) = kdenote q from by
            simp [kdenote]]
          exact ihV _ q (by simp [vsize] at hxy ⊢; omega) hnx
            (by simpa [numExact] using hny)
        | _ => simp [eqJson, kdenote]
      | byteString bs e t =>
        cases y with
        | jsonConstPointer q =>
          rw [eqJson_jptrR, show kdenote (Value.jsonConstPointer q) = kdenote q from by
            simp [kdenote]]
          exact ihV _ q (by simp [vsize] at hxy ⊢; omega) hnx
            (by simpa [numExact] using hny)
        | _ => simp [eqJson, kdenote]
      | arrayValue l t =>
        cases y with
        | jsonConstPointer q =>
          rw [eqJson_jptrR, show kdenote (Value.jsonConstPointer q) = kdenote q from by
            simp [kdenote]]
          exact ihV _ q (by simp [vsize] at hxy ⊢; omega) hnx
            (by simpa [numExact] using hny)
        | arrayValue l2 t2 =>
          simp only [eqJson, kdenote, K.arrK.injEq]
          exact ihL l l2 (by simp [vsize] at hxy; omega)
            (by simpa [numExact] using hnx) (by simpa [numExact] using hny)
        | _ => simp [eqJson, kdenote]
      | objectValue l t =>
        cases y with
        | jsonConstPointer q =>
          rw [eqJson_jptrR, show kdenote (Value.jsonConstPointer q) = kdenote q from by
            simp [kdenote]]
          exact ihV _ q (by simp [vsize] at hxy ⊢; omega) hnx
            (by simpa [numExact] using hny)
        | emptyObject t2 =>
          cases l with
          | nil => simp [eqJson, kdenote, kdenoteEntries]
          | cons e r =>
            rcases e with ⟨k, v⟩
            simp [eqJson, kdenote, kdenoteEntries]
        | objectValue l2 t2 =>
          simp only [eqJson, kdenote, K.objK.injEq]
          exact ihE l l2 (by simp [vsize] at hxy; omega)
            (by simpa [numExact] using hnx) (by simpa [numExact] using hny)
        | _ => simp [eqJson, kdenote]
    · intro l l2 hl hnx hny
      cases l with
      | nil => cases l2 <;> simp [eqListJ, kdenoteList]
      | cons v r =>
        cases l2 with
        | nil => simp [eqListJ, kdenoteList]
        | cons w r2 =>
          have hv := ihV v w (by simp [lsize] at hl; omega)
            (by simp [numExactList] at hnx; exact hnx.1)
            (by simp [numExactList] at hny; exact hny.1)
          have hr := ihL r r2 (by simp [lsize] at hl; omega)
            (by simp [numExactList] at hnx; exact hnx.2)
            (by simp [numExactList] at hny; exact hny.2)
          simp only [eqListJ, kdenoteList, List.cons.injEq, Bool.and_eq_true]
          exact and_congr hv hr
    · intro l l2 hl hnx hny
      cases l with
      | nil =>
        cases l2 with
        | nil => simp [eqEntriesJ, kdenoteEntries]
        | cons f r2 =>
          rcases f with ⟨k2, v2⟩
          simp [eqEntriesJ, kdenoteEntries]
      | cons e r =>
        cases l2 with
        | nil =>
          rcases e with ⟨k1, v1⟩
          simp [eqEntriesJ, kdenoteEntries]
        | cons f r2 =>
          rcases e with ⟨k1, v1⟩
          rcases f with ⟨k2, v2⟩
          have hv := ihV v1 v2 (by simp [osize] at hl; omega)
            (by simp [numExactEntries] at hnx; exact hnx.1)
            (by simp [numExactEntries] at hny; exact hny.1)
          have hr := ihE r r2 (by simp [osize] at hl; omega)
            (by simp [numExactEntries] at hnx; exact hnx.2)
            (by simp [numExactEntries] at hny; exact hny.2)
          simp only [eqEntriesJ, kdenoteEntries, List.cons.injEq, Prod.mk.injEq,
            Bool.and_eq_true, beq_iff_eq]
          rw [hv, hr]

/-- C3 counterexample: transitivity of `operator==` fails across the
integer-to-double promotion once the cast rounds: `2^53 + 1` is halfway
between the representable doubles `2^53` and `2^53 + 2` and
`static_cast<double>` rounds it to even, i.e. to `2^53`; so
`int64(2^53) == double(2^53)`, `double(2^53) == int64(2^53+1)`, yet
`int64(2^53) != int64(2^53+1)`. -/
theorem C3_transitivity_counterexample :
    eqJson (.int64Value (2 ^ 53) 0) (.doubleValue (2 ^ 53) 0) = true ∧
    eqJson (.doubleValue (2 ^ 53) 0) (.int64Value (2 ^ 53 + 1) 0) = true ∧
    eqJson (.int64Value (2 ^ 53) 0) (.int64Value (2 ^ 53 + 1) 0) = false := by
  refine ⟨?_, ?_, ?_⟩
  · norm_num [eqJson, roundIntToF64]
  · norm_num [eqJson, roundIntToF64, Nat.log2, Int.sign]
  · norm_num [eqJson]

/-- C3 (amended): `operator==` is reflexive on every value (the entry point
additionally short-circuits same-address comparison, which coincides with
payload reflexivity) and symmetric on every pair; it is transitive on the
`numExact` fragment — every int64/uint64 payload of magnitude at most
`2^53` (so that promotion to double is exact) and every half payload a
finite pattern other than negative zero (so that `decode_half` is
injective) — the restriction the rounding counterexample forces. -/
theorem C3_equality_equivalence :
    (∀ x, eqJson x x = true) ∧
    (∀ x y, eqJson x y = eqJson y x) ∧
    (∀ x y z, numExact x = true → numExact y = true → numExact z = true →
      eqJson x y = true → eqJson y z = true → eqJson x z = true) := by
  refine ⟨fun x => (eqJson_refl_all (vsize x)).1 x le_rfl,
    fun x y => (eqJson_symm_all (vsize x + vsize y)).1 x y le_rfl, ?_⟩
  intro x y z hx hy hz hxy hyz
  have h1 := (eq_iff_kdenote (vsize x + vsize y)).1 x y le_rfl hx hy
  have h2 := (eq_iff_kdenote (vsize y + vsize z)).1 y z le_rfl hy hz
  have h3 := (eq_iff_kdenote (vsize x + vsize z)).1 x z le_rfl hx hz
  exact h3.mpr ((h1.mp hxy).trans (h2.mp hyz))

/-- With a visitor that never signals stop and never sets the error code,
`dump_noflush` emits exactly the depth-first event sequence. -/
lemma dumpRec_noStop : ∀ n : Nat,
    (∀ v st ec, vsize v ≤ n →
      dumpNoflushJ (recVisitor noStopOracle) v st ec = (st ++ dfsEvents v, ec)) ∧
    (∀ l st ec, osize l ≤ n →
      dumpMembersJ (recVisitor noStopOracle) l st ec = (st ++ dfsMembers l, ec)) ∧
    (∀ l st ec, lsize l ≤ n →
      dumpElemsJ (recVisitor noStopOracle) l st ec = (st ++ dfsElems l, ec)) := by
  intro n
  induction n using Nat.strong_induction_on with
  | _ n ih =>
    refine ⟨?_, ?_, ?_⟩
    · intro v st ec hv
      cases v with
      | jsonConstPointer p =>
        rcases n with _ | m
        · simp [vsize] at hv
        · have := (ih m (Nat.lt_succ_self m)).1 p st ec (by simp [vsize] at hv; omega)
          simpa [dumpNoflushJ, dfsEvents] using this
      | objectValue l t =>
        rcases n with _ | m
        · simp [vsize] at hv
        · have h1 := (ih m (Nat.lt_succ_self m)).2.1 l (st ++ [Event.beginObjectE l.length t])
            ec (by simp [vsize] at hv; omega)
          simp only [recVisitor, noStopOracle] at h1
          simp [dumpNoflushJ, recVisitor, noStopOracle, dfsEvents, h1]
      | arrayValue l t =>
        rcases n with _ | m
        · simp [vsize] at hv
        · have h1 := (ih m (Nat.lt_succ_self m)).2.2 l (st ++ [Event.beginArrayE l.length t])
            ec (by simp [vsize] at hv; omega)
          simp only [recVisitor, noStopOracle] at h1
          simp [dumpNoflushJ, recVisitor, noStopOracle, dfsEvents, h1]
      | byteString bs e t =>
        by_cases ht : t = tagExt <;>
          simp [dumpNoflushJ, recVisitor, noStopOracle, dfsEvents, ht]
      | _ => simp [dumpNoflushJ, recVisitor, noStopOracle, dfsEvents]
    · intro l st ec hl
      cases l with
      | nil => simp [dumpMembersJ, dfsMembers]
      | cons e r =>
        rcases e with ⟨k, v⟩
        rcases n with _ | m
        · simp [osize] at hl
        · have h1 := (ih m (Nat.lt_succ_self m)).1 v (st ++ [Event.keyE k]) ec
            (by simp [osize] at hl; omega)
          have h2 := (ih m (Nat.lt_succ_self m)).2.1 r
            (st ++ Event.keyE k :: dfsEvents v) ec (by simp [osize] at hl; omega)
          simp only [recVisitor, noStopOracle] at h1 h2
          simp [dumpMembersJ, recVisitor, noStopOracle, dfsMembers, h1, h2]
    · intro l st ec hl
      cases l with
      | nil => simp [dumpElemsJ, dfsElems]
      | cons v r =>
        rcases n with _ | m
        · simp [lsize] at hl
        · have h1 := (ih m (Nat.lt_succ_self m)).1 v st ec (by simp [lsize] at hl; omega)
          have h2 := (ih m (Nat.lt_succ_self m)).2.2 r (st ++ dfsEvents v) ec
            (by simp [lsize] at hl; omega)
          simp only [recVisitor, noStopOracle] at h1 h2
          simp [dumpElemsJ, recVisitor, noStopOracle, dfsElems, h1, h2]

/-- C4 counterexample: the claim says that when any visitor call signals
stop, deeper recursion and sibling emission cease immediately; but
`dump_noflush` discards the return value of `key` and of every leaf
emitter and never re-reads `more` inside the member loop, so a stop
signalled at `int64_value(1)` does not prevent the sibling member
`"b": 2` from being emitted, nor the enclosing `end_object` and the final
`flush`. -/
theorem C4_stop_ignored_counterexample :
    (stopOnInt64Oracle [Event.beginObjectE 2 0, Event.keyE "a"] false
      (Event.int64E 1 0)).2 = false ∧
    dumpJ (recVisitor stopOnInt64Oracle)
      (.objectValue [("a", .int64Value 1 0), ("b", .int64Value 2 0)] 0) [] false =
      ([Event.beginObjectE 2 0, Event.keyE "a", Event.int64E 1 0,
        Event.keyE "b", Event.int64E 2 0, Event.endObjectE, Event.flushE], false) := by
  constructor
  · rfl
  · simp [dumpJ, dumpNoflushJ, dumpMembersJ, recVisitor, stopOnInt64Oracle]

/-- C4 (amended): `dump(visitor)` emits the depth-first event sequence —
object members in container iteration order, each key event immediately
followed by that member value's traversal, array elements in index order —
and issues `flush()` exactly once at the end when the error code is clear
(and not at all when a visitor call set it).  Stop signals are honoured
only from `begin_object`/`begin_array`: a stop returned there skips that
container's members and its matching end event while traversal elsewhere
continues; stop signals from `key` or leaf emitters are discarded. -/
theorem C4_dump_traversal :
    (∀ (v : Value) (st : List Event),
      dumpJ (recVisitor noStopOracle) v st false =
        (st ++ dfsEvents v ++ [Event.flushE], false)) ∧
    (∀ (S : Type) (vis : Visitor S) (l : List (String × Value)) (t : Tag) (st : S)
        (ec : Bool),
      (vis.onEvent (.beginObjectE l.length t) st ec).2.2 = false →
      dumpNoflushJ vis (.objectValue l t) st ec =
        ((vis.onEvent (.beginObjectE l.length t) st ec).1,
         (vis.onEvent (.beginObjectE l.length t) st ec).2.1)) ∧
    (∀ (S : Type) (vis : Visitor S) (l : List Value) (t : Tag) (st : S) (ec : Bool),
      (vis.onEvent (.beginArrayE l.length t) st ec).2.2 = false →
      dumpNoflushJ vis (.arrayValue l t) st ec =
        ((vis.onEvent (.beginArrayE l.length t) st ec).1,
         (vis.onEvent (.beginArrayE l.length t) st ec).2.1)) ∧
    (∀ (S : Type) (vis : Visitor S) (v : Value) (st : S) (ec : Bool),
      (dumpNoflushJ vis v st ec).2 = true →
      dumpJ vis v st ec = dumpNoflushJ vis v st ec) ∧
    (∀ (S : Type) (vis : Visitor S) (v : Value) (st : S) (ec : Bool),
      (dumpNoflushJ vis v st ec).2 = false →
      dumpJ vis v st ec = (vis.flush (dumpNoflushJ vis v st ec).1, false)) := by
  refine ⟨?_, ?_, ?_, ?_, ?_⟩
  · intro v st
    have h1 := (dumpRec_noStop (vsize v)).1 v st false le_rfl
    simp only [recVisitor, noStopOracle] at h1
    simp [dumpJ, recVisitor, noStopOracle, h1]
  · intro S vis l t st ec hstop
    simp [dumpNoflushJ, hstop]
  · intro S vis l t st ec hstop
    simp [dumpNoflushJ, hstop]
  · intro S vis v st ec h
    simp [dumpJ, h]
  · intro S vis v st ec h
    simp [dumpJ, h]

end JsonView
